import Mathlib

/-!
Verification of the JSSE (Javascript Simple Search Engine) repository,
a shallow embedding of `src/jsse.js` into Lean 4.

Modelling conventions:
* A JavaScript object with string keys is modelled as an association list
  in insertion order (`Obj`): `obj[k] = v` updates the first entry with key
  `k` in place, or appends a fresh entry at the end; `delete obj[k]` removes
  the entries with key `k`; `for (x in obj)` iterates in list order.
  (The JS reordering of integer-like keys is not modelled; no claim below
  depends on iteration order of integer-like keys.)
* JS strings are Lean `String`s; `toLowerCase` is modelled on ASCII letters.
* The optional `key` argument is `Option String`; JS truthiness of a string
  argument is `keyTruthy` (absent or empty string is falsy).  An absent or
  `null` text argument is modelled by the empty string, which the source
  treats identically (`if (!str) return index`).
* The numeric fields are `Int` (for `size` and the mutable `count` of a
  collection entry, which the code decrements) or `Nat` (pure counters).
-/

namespace JSSE

/-- A JavaScript object with string keys: association list in insertion order. -/
abbrev Obj (α : Type) := List (String × α)

/-- Property read `m[k]`: first entry with key `k`, if any. -/
def objGet {α : Type} : Obj α → String → Option α
  | [], _ => none
  | (k, v) :: rest, key => if k = key then some v else objGet rest key

/-- Property write `m[k] = v`: update the first entry with key `k` in place,
or append a fresh entry at the end. -/
def objSet {α : Type} : Obj α → String → α → Obj α
  | [], key, v => [(key, v)]
  | (k, w) :: rest, key, v =>
    if k = key then (k, v) :: rest else (k, w) :: objSet rest key v

/-- Property deletion `delete m[k]`. -/
def objDel {α : Type} : Obj α → String → Obj α
  | [], _ => []
  | (k, v) :: rest, key =>
    if k = key then objDel rest key else (k, v) :: objDel rest key

/-! ### String helpers of the source (split, trim, normalize) -/

/-- JS `\s` whitespace class (the characters relevant to ASCII text). -/
def jsIsSpace (c : Char) : Bool :=
  c = ' ' || c = '\t' || c = '\n' || c = '\r' || c = '\x0b' || c = '\x0c'

/-- `String.prototype.toLowerCase`, restricted to ASCII letters. -/
def jsLower (c : Char) : Char :=
  if 'A' ≤ c ∧ c ≤ 'Z' then Char.ofNat (c.toNat + 32) else c

/-- The character class kept by `word.replace(/[^a-z0-9_\-\s]/gi, '')` after
lower-casing: `a-z`, `0-9`, underscore, hyphen, whitespace. -/
def jsKeepChar (c : Char) : Bool :=
  ('a' ≤ c && c ≤ 'z') || ('0' ≤ c && c ≤ '9') || c = '_' || c = '-' || jsIsSpace c

/-- `$.trim`: drop leading and trailing whitespace. -/
def jsTrim (l : List Char) : List Char :=
  ((l.dropWhile jsIsSpace).reverse.dropWhile jsIsSpace).reverse

/-- Helper for `str.split(' ')`: split on every single space. -/
def splitSpacesAux : List Char → List Char → List String
  | [], acc => [String.mk acc.reverse]
  | c :: rest, acc =>
    if c = ' ' then String.mk acc.reverse :: splitSpacesAux rest []
    else splitSpacesAux rest (c :: acc)

/-- JS `str.split(' ')` (e.g. `"a  b"` gives `["a", "", "b"]`, `""` gives `[""]`). -/
def jsSplitSpace (s : String) : List String := splitSpacesAux s.data []

/-- The `stop_list` field: list of words not to index. -/
def stop_list : List String :=
  ["at", "to", "we", "my", "as", "is", "in", "am", "I", "he", "she", "that",
   "the", "them", "a"]

/-- `Jsse.normalize`: lower-case, strip characters outside
`[a-z0-9_\-\s]`, trim, and discard stop-list words (returns `""`). -/
def normalize (word : String) : String :=
  let w := String.mk (jsTrim ((word.data.map jsLower).filter jsKeepChar))
  if stop_list.contains w then "" else w

/-! ### Data model: index records, word entries, the engine state -/

/-- A record of the per-call index built by `Jsse._index`:
`{weight: word.length, count: occurrences}`. -/
structure IdxRec where
  weight : Nat
  count : Nat
  deriving DecidableEq

/-- A record of the query expansion built by `Jsse._indexAgainst`:
`{orig: original query token, weight, count}`. -/
structure ARec where
  orig : String
  weight : Nat
  count : Nat
  deriving DecidableEq

/-- An entry of the collection: `{weight, count, keys}`.  The `count` field is
decremented by `_remove`, so it is modelled as `Int`. -/
structure WordEntry where
  weight : Nat
  count : Int
  keys : List String
  deriving DecidableEq

instance : Inhabited WordEntry := ⟨⟨0, 0, []⟩⟩

/-- The engine state: the `size`, `collection` and `keys` fields of a `Jsse`
instance (the stop list is a constant). -/
structure Jsse where
  size : Int
  collection : Obj WordEntry
  keys : Obj String
  deriving DecidableEq

/-- `new Jsse()`. -/
def emptyJsse : Jsse := { size := 0, collection := [], keys := [] }

/-- JS truthiness of the optional `key` argument (absent, `null` or the empty
string are falsy). -/
def keyTruthy : Option String → Bool
  | none => false
  | some s => s != ""

/-- The string value of a truthy key argument. -/
def keyVal : Option String → String
  | none => ""
  | some s => s

/-! ### `Jsse._index` -/

/-- Body of the loop of `Jsse._index` over the words of the split string. -/
def jsIndexStep (index : Obj IdxRec) (w : String) : Obj IdxRec :=
  let word := normalize w
  if word.length < 2 then index
  else
    match objGet index word with
    | some r => objSet index word { r with count := r.count + 1 }
    | none => objSet index word { weight := word.length, count := 1 }

/-- `Jsse._index(str)`: split on spaces, normalize each word, skip words of
length < 2, and accumulate `{weight, count}` per distinct normalized word. -/
def jsIndex (str : String) : Obj IdxRec :=
  if str = "" then [] else (jsSplitSpace str).foldl jsIndexStep []

/-! ### `removeFromArray` (global helper) -/

/-- The loop of `removeFromArray`: `for (i = array.length-1; i >= 0; i--)
if (array[i] == item) array.splice(i);`.  Note `splice(i)` with no second
argument removes every element from position `i` on (modelled by `take i`). -/
def rfaGo (item : String) : List String → Nat → List String
  | a, 0 => a
  | a, i + 1 => if a.getD i "" = item then rfaGo item (a.take i) i else rfaGo item a i

/-- `removeFromArray(array, item)`. -/
def removeFromArray (a : List String) (item : String) : List String :=
  if a.length = 0 then a else rfaGo item a a.length

/-! ### `Jsse._merge` and `Jsse._remove` -/

/-- Body of the loop of `Jsse._merge` over the words of a per-call index. -/
def mergeStep (key : Option String) (e : Jsse) (p : String × IdxRec) : Jsse :=
  match objGet e.collection p.1 with
  | some entry =>
    { e with
      collection := objSet e.collection p.1
        { entry with
          count := entry.count + 1,
          keys := if keyTruthy key then entry.keys ++ [keyVal key] else entry.keys } }
  | none =>
    { e with
      collection := objSet e.collection p.1
        { weight := p.2.weight, count := (p.2.count : Int),
          keys := if keyTruthy key then [keyVal key] else [] },
      size := e.size + 1 }

/-- `Jsse._merge(index, key)`: merge a per-call index into the collection. -/
def Jsse.merge_ (e : Jsse) (index : Obj IdxRec) (key : Option String) : Jsse :=
  index.foldl (mergeStep key) e

/-- Body of the loop of `Jsse._remove` over the words of a per-call index. -/
def removeStep (key : Option String) (e : Jsse) (p : String × IdxRec) : Jsse :=
  match objGet e.collection p.1 with
  | none => e
  | some entry =>
    let entry1 : WordEntry :=
      { entry with
        count := entry.count - 1,
        keys := if keyTruthy key then removeFromArray entry.keys (keyVal key)
                else entry.keys }
    if entry1.count = 0 then
      { e with collection := objDel e.collection p.1, size := e.size - 1 }
    else
      { e with collection := objSet e.collection p.1 entry1 }

/-- `Jsse._remove(index, key)`: the reverse of `_merge`. -/
def Jsse.remove_ (e : Jsse) (index : Obj IdxRec) (key : Option String) : Jsse :=
  index.foldl (removeStep key) e

/-! ### Public mutators: `add`, `remove`, `clear`, `getWords` -/

/-- `Jsse.add(str, key)`. -/
def Jsse.add (e : Jsse) (str : String) (key : Option String) : Jsse :=
  let e1 := if keyTruthy key then { e with keys := objSet e.keys (keyVal key) str } else e
  e1.merge_ (jsIndex str) key

/-- `Jsse.remove(str, key)`. -/
def Jsse.remove (e : Jsse) (str : String) (key : Option String) : Jsse :=
  if e.size = 0 then e
  else
    let e1 := e.remove_ (jsIndex str) key
    if keyTruthy key then { e1 with keys := objDel e1.keys (keyVal key) } else e1

/-- `Jsse.clear()`. -/
def Jsse.clear (e : Jsse) : Jsse := { e with collection := [], size := 0 }

/-- `Jsse.getWords()`. -/
def Jsse.getWords (e : Jsse) : List String := e.collection.map Prod.fst

/-! ### `Jsse._indexAgainst` -/

/-- The seeding step of `Jsse._indexAgainst`: each query word is entered with
`orig` set to itself (`record.orig = word; index[word] = record`). -/
def iaSeedStep (idx : Obj ARec) (p : String × IdxRec) : Obj ARec :=
  objSet idx p.1 ⟨p.1, p.2.weight, p.2.count⟩

/-- The innermost loop of `Jsse._indexAgainst`: if the query token `p` is a
prefix of the collection word `q` (`word.indexOf(partial) == 0`), overwrite
the entry for `q` with `{orig: p, weight: p.length, count: 1}`. -/
def iaOver (q : String × WordEntry) (idx : Obj ARec) (p : String × IdxRec) :
    Obj ARec :=
  if p.1.data.isPrefixOf q.1.data then objSet idx q.1 ⟨p.1, p.1.length, 1⟩ else idx

/-- The per-collection-word step of `Jsse._indexAgainst`: try every query
token against this collection word. -/
def iaExpandStep (index_tmp : Obj IdxRec) (idx : Obj ARec)
    (q : String × WordEntry) : Obj ARec :=
  index_tmp.foldl (iaOver q) idx

/-- `Jsse._indexAgainst(str)`: seed the result with the query's own index
(each word tagged `orig = word`), then for every collection word and every
query token that is a prefix of it (`word.indexOf(tok) == 0`), overwrite the
entry with `{orig: tok, weight: tok.length, count: 1}`. -/
def Jsse.indexAgainst (e : Jsse) (str : String) : Obj ARec :=
  let index_tmp := jsIndex str
  e.collection.foldl (iaExpandStep index_tmp) (index_tmp.foldl iaSeedStep [])

/-! ### `Jsse._nb_keywords_found` and `Jsse._sort_assoc_array` -/

/-- Fuelled scan counting non-overlapping occurrences of `w` in `s`:
`while (string.indexOf(word, start) > -1) { nb_found++; start = idx + len; }`. -/
def countOccGo (w : List Char) : Nat → List Char → Nat
  | 0, _ => 0
  | fuel + 1, s =>
    if w.isPrefixOf s then 1 + countOccGo w fuel (s.drop w.length)
    else
      match s with
      | [] => 0
      | _ :: rest => countOccGo w fuel rest

/-- Number of non-overlapping occurrences of `w` in `s` (`w` nonempty at every
call site; the fuel `s.length + 1` is enough since every step drops a char). -/
def countOcc (s w : String) : Nat := countOccGo w.data (s.data.length + 1) s.data

/-- `Jsse._nb_keywords_found(key, words)`: sum of occurrence counts of every
non-empty trimmed query token in the original stored string for `key`; squared
on a perfect match; `0` if the key has no (truthy) stored string. -/
def Jsse.nb_keywords_found (e : Jsse) (key : String) (words : String) : Nat :=
  let arr_words := jsSplitSpace words
  match objGet e.keys key with
  | none => 0
  | some s =>
    if s = "" then 0
    else
      let nb_found := arr_words.foldl
        (fun nb w =>
          let word := String.mk (jsTrim w.data)
          if word = "" then nb else nb + countOcc s word) 0
      if words = s then nb_found * nb_found else nb_found

/-- Insertion into a descending-sorted list, after entries of equal value
(stable, like `Array.prototype.sort` with comparator `y.value - x.value`). -/
def insertDesc (x : String × Nat) : List (String × Nat) → List (String × Nat)
  | [] => [x]
  | y :: ys => if y.2 < x.2 then x :: y :: ys else y :: insertDesc x ys

/-- `Jsse._sort_assoc_array(keys)`: stable sort of the `(key, value)` pairs by
descending value. -/
def sort_assoc_array : List (String × Nat) → List (String × Nat)
  | [] => []
  | x :: xs => insertDesc x (sort_assoc_array xs)

/-! ### `Jsse.match` -/

/-- The first loop of `Jsse.match`: the number of expansion entries whose key
equals their own `orig` tag (the variable `size`). -/
def querySize (index : Obj ARec) : Nat :=
  index.foldl (fun n p => if p.1 = p.2.orig then n + 1 else n) 0

/-- The innermost loop body of the key-collection pass of `Jsse.match`: record
`orig` for one document key (`keys[key].push(orig)` deduplicated by
`indexOf`). -/
def matchKeysInner (orig : String) (ks : Obj (List String)) (key : String) :
    Obj (List String) :=
  match objGet ks key with
  | some origs => if origs.contains orig then ks else objSet ks key (origs ++ [orig])
  | none => objSet ks key [orig]

/-- The body of the second loop of `Jsse.match` for one expansion entry:
for every key of the matching collection entry, record the entry's `orig`
(deduplicated per key). -/
def matchKeysStep (e : Jsse) (ks : Obj (List String)) (p : String × ARec) :
    Obj (List String) :=
  match objGet e.collection p.1 with
  | none => ks
  | some found => found.keys.foldl (matchKeysInner p.2.orig) ks

/-- One step of the prefix-expansion loop of `Jsse._indexAgainst`,
specialized to a single query token `P` (used to analyse claim C4). -/
def c4Step (P : String) (idx : Obj ARec) (q : String × WordEntry) : Obj ARec :=
  if P.data.isPrefixOf q.1.data then objSet idx q.1 ⟨P, P.length, 1⟩ else idx

/-- `Jsse.match(str, mode)`.  `mode || (mode = 'all')` is modelled by treating
the empty string (the falsy default) as `'all'`; any other non-`'all'` mode
takes the `'any'` branch, as in the source. -/
def Jsse.matchRun (e : Jsse) (str : String) (mode0 : String) : List String :=
  let mode := if mode0 = "" then "all" else mode0
  let index := e.indexAgainst str
  let size := querySize index
  let keys := index.foldl (matchKeysStep e) []
  if mode = "all" then
    keys.foldl (fun res p => if p.2.length = size then res ++ [p.1] else res) []
  else
    let nb : List (String × Nat) :=
      keys.foldl (fun nb p => objSet nb p.1 (e.nb_keywords_found p.1 str)) []
    (sort_assoc_array nb).map Prod.fst

/-- `Jsse.match` with the state threaded explicitly: the method reads
`this.collection` and `this.keys` but contains no assignment to any field of
`this`, so the state component of the result is the input state. -/
def Jsse.matchS (e : Jsse) (str mode0 : String) : List String × Jsse :=
  (e.matchRun str mode0, e)

/-! ### Reachable states -/

/-- States reachable from `new Jsse()` by the public operations. -/
inductive Reachable : Jsse → Prop where
  | empty : Reachable emptyJsse
  | add (str : String) (key : Option String) {e : Jsse} :
      Reachable e → Reachable (e.add str key)
  | remove (str : String) (key : Option String) {e : Jsse} :
      Reachable e → Reachable (e.remove str key)
  | clear {e : Jsse} : Reachable e → Reachable e.clear
  | mtch (str mode0 : String) {e : Jsse} :
      Reachable e → Reachable (e.matchS str mode0).2

/-- The structural invariant of an engine state: the size counter equals the
number of words in the collection, and collection words are distinct. -/
def Jsse.Inv (e : Jsse) : Prop :=
  e.size = (e.collection.length : Int) ∧ (e.collection.map Prod.fst).Nodup

/-- Per-word side condition of the amended round-trip claim C1: a word of the
per-call index already in the collection must have nonzero count and must not
already list the key `k`; a word new to the collection must occur exactly once
in the call's text. -/
def roundtripOk (e : Jsse) (k : String) (p : String × IdxRec) : Bool :=
  match objGet e.collection p.1 with
  | some entry => decide (entry.count ≠ 0) && decide (k ∉ entry.keys)
  | none => decide (p.2.count = 1)

/-! ### Characterization helpers for the merge/remove loops -/

/-- The entry stored by one `_merge` step for a word, as a function of the
word's previous entry (if any). -/
def mergedEntry (old : Option WordEntry) (r : IdxRec) (k : Option String) :
    WordEntry :=
  match old with
  | some entry =>
    { entry with
      count := entry.count + 1,
      keys := if keyTruthy k then entry.keys ++ [keyVal k] else entry.keys }
  | none =>
    { weight := r.weight, count := (r.count : Int),
      keys := if keyTruthy k then [keyVal k] else [] }

/-- The updated entry of one `_remove` step (before the count-zero check). -/
def removedEntry (entry : WordEntry) (k : Option String) : WordEntry :=
  { entry with
    count := entry.count - 1,
    keys := if keyTruthy k then removeFromArray entry.keys (keyVal k)
            else entry.keys }

/-- The entry left for a word by one `_remove` step, as a function of the
word's previous entry (if any). -/
def removedLookup (old : Option WordEntry) (k : Option String) :
    Option WordEntry :=
  match old with
  | none => none
  | some entry =>
    if entry.count - 1 = 0 then none else some (removedEntry entry k)

/-- Number of words of a per-call index that are new to the collection. -/
def newCount (idx : Obj IdxRec) (e : Jsse) : Nat :=
  (idx.filter (fun p => decide (objGet e.collection p.1 = none))).length

/-- Whether the `_remove` step for this index word deletes its entry. -/
def isDelIn (e : Jsse) (p : String × IdxRec) : Bool :=
  match objGet e.collection p.1 with
  | some entry => decide (entry.count - 1 = 0)
  | none => false

/-- Number of words of a per-call index whose `_remove` step deletes the
collection entry. -/
def delCount (idx : Obj IdxRec) (e : Jsse) : Nat :=
  (idx.filter (isDelIn e)).length

/-- Invariant of the expansion built by `_indexAgainst` (claim C3): an
entry's `orig` equals its key exactly when the key is a query token; keys are
distinct; every query token has an entry. -/
def c3Inv (toks : List String) (idx : Obj ARec) : Prop :=
  (∀ pr ∈ idx, pr.2.orig = pr.1 ↔ pr.1 ∈ toks) ∧
  ((idx.map Prod.fst).Nodup) ∧
  (∀ t ∈ toks, t ∈ idx.map Prod.fst)

/-! ### Spec-side definition used by claim C3 -/

/-- The number of distinct, non-empty, length-at-least-2 normalized tokens of
a query, written after the spec's words (claim C3 compares the engine's
`queryWordCount` against this). -/
def specQueryTokenCount (str : String) : Nat :=
  ((((jsSplitSpace str).map normalize).filter (fun w => 2 ≤ w.length)).dedup).length

/-! ## Lemmas about the object model -/

theorem objGet_objSet_self {α : Type} (m : Obj α) (k : String) (v : α) :
    objGet (objSet m k v) k = some v := by
  induction m with
  | nil => simp [objGet, objSet]
  | cons p rest ih =>
    obtain ⟨k0, v0⟩ := p
    by_cases h : k0 = k <;> simp [objGet, objSet, h, ih]

theorem objGet_objSet_ne {α : Type} (m : Obj α) (k q : String) (v : α) (h : k ≠ q) :
    objGet (objSet m k v) q = objGet m q := by
  induction m with
  | nil => simp [objGet, objSet, h]
  | cons p rest ih =>
    obtain ⟨k0, v0⟩ := p
    by_cases h0 : k0 = k <;> simp [objGet, objSet, h0, h, ih]

theorem objGet_objDel_self {α : Type} (m : Obj α) (k : String) :
    objGet (objDel m k) k = none := by
  induction m with
  | nil => simp [objGet, objDel]
  | cons p rest ih =>
    obtain ⟨k0, v0⟩ := p
    by_cases h : k0 = k <;> simp [objGet, objDel, h, ih]

theorem objGet_objDel_ne {α : Type} (m : Obj α) (k q : String) (h : k ≠ q) :
    objGet (objDel m k) q = objGet m q := by
  induction m with
  | nil => simp [objGet, objDel]
  | cons p rest ih =>
    obtain ⟨k0, v0⟩ := p
    by_cases h0 : k0 = k <;> simp [objGet, objDel, h0, h, ih]

theorem objGet_eq_none_iff {α : Type} (m : Obj α) (k : String) :
    objGet m k = none ↔ k ∉ m.map Prod.fst := by
  induction m with
  | nil => simp [objGet]
  | cons p rest ih =>
    obtain ⟨k0, v0⟩ := p
    by_cases h : k0 = k
    · simp [objGet, h]
    · simp only [objGet, if_neg h, ih, List.map_cons, List.mem_cons]
      constructor
      · intro hh hmem
        rcases hmem with hmem | hmem
        · exact h hmem.symm
        · exact hh hmem
      · intro hh hmem
        exact hh (Or.inr hmem)

theorem objSet_absent {α : Type} (m : Obj α) (k : String) (v : α)
    (h : objGet m k = none) : objSet m k v = m ++ [(k, v)] := by
  induction m with
  | nil => simp [objSet]
  | cons p rest ih =>
    obtain ⟨k0, v0⟩ := p
    by_cases h0 : k0 = k
    · simp [objGet, h0] at h
    · simp [objGet, h0] at h
      simp [objSet, h0, ih h]

theorem objSet_self {α : Type} (m : Obj α) (k : String) (v : α)
    (h : objGet m k = some v) : objSet m k v = m := by
  induction m with
  | nil => simp [objGet] at h
  | cons p rest ih =>
    obtain ⟨k0, v0⟩ := p
    by_cases h0 : k0 = k
    · simp [objGet, h0] at h
      simp [objSet, h0, h]
    · simp [objGet, h0] at h
      simp [objSet, h0, ih h]

theorem objSet_objSet {α : Type} (m : Obj α) (k : String) (v v' : α) :
    objSet (objSet m k v) k v' = objSet m k v' := by
  induction m with
  | nil => simp [objSet]
  | cons p rest ih =>
    obtain ⟨k0, v0⟩ := p
    by_cases h : k0 = k <;> simp [objSet, h, ih]

theorem objSet_map_fst_present {α : Type} (m : Obj α) (k : String) (v : α)
    (h : objGet m k ≠ none) : (objSet m k v).map Prod.fst = m.map Prod.fst := by
  induction m with
  | nil => simp [objGet] at h
  | cons p rest ih =>
    obtain ⟨k0, v0⟩ := p
    by_cases h0 : k0 = k
    · simp [objSet, h0]
    · simp [objGet, h0] at h
      simp [objSet, h0, ih h]

theorem objSet_map_fst_absent {α : Type} (m : Obj α) (k : String) (v : α)
    (h : objGet m k = none) : (objSet m k v).map Prod.fst = m.map Prod.fst ++ [k] := by
  rw [objSet_absent m k v h]
  simp

theorem objSet_length_present {α : Type} (m : Obj α) (k : String) (v : α)
    (h : objGet m k ≠ none) : (objSet m k v).length = m.length := by
  have := objSet_map_fst_present m k v h
  have h1 := congrArg List.length this
  simpa using h1

theorem objSet_length_absent {α : Type} (m : Obj α) (k : String) (v : α)
    (h : objGet m k = none) : (objSet m k v).length = m.length + 1 := by
  rw [objSet_absent m k v h]
  simp

theorem objSet_nodup {α : Type} (m : Obj α) (k : String) (v : α)
    (h : (m.map Prod.fst).Nodup) : ((objSet m k v).map Prod.fst).Nodup := by
  by_cases h0 : objGet m k = none
  · rw [objSet_map_fst_absent m k v h0]
    have hk : k ∉ m.map Prod.fst := (objGet_eq_none_iff m k).mp h0
    simp [List.nodup_append, h, hk]
  · rw [objSet_map_fst_present m k v h0]
    exact h

theorem objDel_absent {α : Type} (m : Obj α) (k : String)
    (h : objGet m k = none) : objDel m k = m := by
  induction m with
  | nil => simp [objDel]
  | cons p rest ih =>
    obtain ⟨k0, v0⟩ := p
    by_cases h0 : k0 = k
    · simp [objGet, h0] at h
    · simp [objGet, h0] at h
      simp [objDel, h0, ih h]

theorem objDel_map_fst_sublist {α : Type} (m : Obj α) (k : String) :
    ((objDel m k).map Prod.fst).Sublist (m.map Prod.fst) := by
  induction m with
  | nil => simp [objDel]
  | cons p rest ih =>
    obtain ⟨k0, v0⟩ := p
    by_cases h : k0 = k
    · simp only [objDel, h, if_pos rfl, List.map_cons]
      exact ih.cons _
    · simp only [objDel, h, if_neg h, List.map_cons]
      exact ih.cons₂ _

theorem objDel_nodup {α : Type} (m : Obj α) (k : String)
    (h : (m.map Prod.fst).Nodup) : ((objDel m k).map Prod.fst).Nodup :=
  (objDel_map_fst_sublist m k).nodup h

theorem objDel_length_present {α : Type} (m : Obj α) (k : String) (v : α)
    (hnd : (m.map Prod.fst).Nodup) (h : objGet m k = some v) :
    (objDel m k).length + 1 = m.length := by
  induction m with
  | nil => simp [objGet] at h
  | cons p rest ih =>
    obtain ⟨k0, v0⟩ := p
    simp only [List.map_cons, List.nodup_cons] at hnd
    by_cases h0 : k0 = k
    · subst h0
      have : objGet rest k0 = none := (objGet_eq_none_iff rest k0).mpr hnd.1
      simp [objDel, objDel_absent rest k0 this]
    · simp [objGet, h0] at h
      simp [objDel, h0, ih hnd.2 h]

theorem objSet_append_left {α : Type} (m m' : Obj α) (k : String) (v : α)
    (h : objGet m k ≠ none) : objSet (m ++ m') k v = objSet m k v ++ m' := by
  induction m with
  | nil => simp [objGet] at h
  | cons p rest ih =>
    obtain ⟨k0, v0⟩ := p
    by_cases h0 : k0 = k
    · simp [objSet, h0]
    · simp [objGet, h0] at h
      simp [objSet, h0, ih h]

/-! ## Field-preservation lemmas for the merge/remove loops -/

theorem mergeStep_keys (k : Option String) (e : Jsse) (p : String × IdxRec) :
    (mergeStep k e p).keys = e.keys := by
  unfold mergeStep
  cases objGet e.collection p.1 <;> rfl

theorem removeStep_keys (k : Option String) (e : Jsse) (p : String × IdxRec) :
    (removeStep k e p).keys = e.keys := by
  unfold removeStep
  cases objGet e.collection p.1 with
  | none => rfl
  | some entry => dsimp only; split <;> rfl

theorem merge__keys (e : Jsse) (idx : Obj IdxRec) (k : Option String) :
    (e.merge_ idx k).keys = e.keys := by
  induction idx generalizing e with
  | nil => rfl
  | cons p rest ih =>
    show ((mergeStep k e p).merge_ rest k).keys = e.keys
    rw [ih, mergeStep_keys]

theorem remove__keys (e : Jsse) (idx : Obj IdxRec) (k : Option String) :
    (e.remove_ idx k).keys = e.keys := by
  induction idx generalizing e with
  | nil => rfl
  | cons p rest ih =>
    show ((removeStep k e p).remove_ rest k).keys = e.keys
    rw [ih, removeStep_keys]

/-! ## Claim C5: the README scenario -/

/-- Claim C5: starting from an empty engine, after
`add('Instant search in Google is awesome!', 'quote')` and
`add('It will work fine after you install that patch.', 'instruction')`,
`match('inst')` (default ALL mode) returns exactly `['quote', 'instruction']`. -/
theorem c5_scenario_inst :
    ((emptyJsse.add "Instant search in Google is awesome!" (some "quote")).add
      "It will work fine after you install that patch."
      (some "instruction")).matchRun "inst" "" = ["quote", "instruction"] := by
  decide

/-! ## Claim C10: match is read-only -/

/-- Claim C10: for every engine state, query and mode, `match` leaves the
engine state unchanged (the source reads `this.collection` and `this.keys`
but contains no assignment to any field of `this`). -/
theorem c10_match_readonly (e : Jsse) (str mode0 : String) :
    (e.matchS str mode0).2.collection = e.collection ∧
    (e.matchS str mode0).2.size = e.size ∧
    (e.matchS str mode0).2.keys = e.keys :=
  ⟨rfl, rfl, rfl⟩

/-! ## Claim C8: empty text -/

/-- Claim C8 is false as stated: `add('', 'k')` on the empty engine still
records `'k' ↦ ''` in the KeyStore, so not all of Collection, size and
KeyStore are unchanged. -/
theorem c8_counterexample :
    ¬((emptyJsse.add "" (some "k")).collection = emptyJsse.collection ∧
      (emptyJsse.add "" (some "k")).size = emptyJsse.size ∧
      (emptyJsse.add "" (some "k")).keys = emptyJsse.keys) := by
  decide

/-- Claim C8 (amended): `add` or `remove` with empty (or null) text contribute
nothing to the index: the Collection and size are unchanged; the KeyStore is
also unchanged when no truthy key is supplied; a supplied truthy key is still
recorded by `add`, and deleted by `remove` when the size is nonzero. -/
theorem c8_empty_text (e : Jsse) (key : Option String) :
    (e.add "" key).collection = e.collection ∧
    (e.add "" key).size = e.size ∧
    (e.remove "" key).collection = e.collection ∧
    (e.remove "" key).size = e.size ∧
    (keyTruthy key = false →
      (e.add "" key).keys = e.keys ∧ (e.remove "" key).keys = e.keys) ∧
    (keyTruthy key = true →
      (e.add "" key).keys = objSet e.keys (keyVal key) "" ∧
      (e.size ≠ 0 → (e.remove "" key).keys = objDel e.keys (keyVal key))) := by
  have hidx : jsIndex "" = [] := rfl
  by_cases hs : e.size = 0 <;> by_cases ht : keyTruthy key <;>
    simp [Jsse.add, Jsse.remove, Jsse.merge_, Jsse.remove_, hidx, hs, ht]

/-- Witness for the amended claim C8 at a concrete state and truthy key. -/
theorem c8_empty_text_witness :
    ((emptyJsse.add "ab" (some "k")).add "" (some "q")).collection =
      (emptyJsse.add "ab" (some "k")).collection ∧
    ((emptyJsse.add "ab" (some "k")).add "" (some "q")).keys =
      objSet (emptyJsse.add "ab" (some "k")).keys "q" "" ∧
    ((emptyJsse.add "ab" (some "k")).remove "" (some "q")).keys =
      objDel (emptyJsse.add "ab" (some "k")).keys "q" := by
  refine ⟨(c8_empty_text (emptyJsse.add "ab" (some "k")) (some "q")).1, ?_, ?_⟩
  · exact (((c8_empty_text (emptyJsse.add "ab" (some "k"))
      (some "q")).2.2.2.2.2) (by decide)).1
  · exact (((c8_empty_text (emptyJsse.add "ab" (some "k"))
      (some "q")).2.2.2.2.2) (by decide)).2 (by decide)

/-! ## Claim C9: remove deletes the KeyStore entry -/

/-- Claim C9 is false as stated: from the reachable state
`add('', 'k')` (size is 0, KeyStore holds `'k'`), `remove('xy', 'k')` returns
early on `size == 0` and leaves the KeyStore entry for `'k'` in place. -/
theorem c9_counterexample :
    objGet ((emptyJsse.add "" (some "k")).remove "xy" (some "k")).keys "k" ≠
      none := by
  decide

/-- Claim C9 (amended): when the size is nonzero (so `remove` does not return
early) and the supplied key is truthy, `remove(text, K)` deletes the KeyStore
entry for `K`. -/
theorem c9_remove_deletes_key (e : Jsse) (str k : String) (hk : k ≠ "")
    (hs : e.size ≠ 0) :
    objGet (e.remove str (some k)).keys k = none := by
  have ht : keyTruthy (some k) = true := by simp [keyTruthy, hk]
  unfold Jsse.remove
  rw [if_neg hs]
  simp only [ht, if_pos rfl]
  exact objGet_objDel_self _ _

/-- Witness for the amended claim C9. -/
theorem c9_remove_deletes_key_witness :
    objGet ((emptyJsse.add "red car" (some "k")).remove "red car"
      (some "k")).keys "k" = none :=
  c9_remove_deletes_key (emptyJsse.add "red car" (some "k")) "red car" "k"
    (by decide) (by decide)

/-! ## Counterexamples for claims C1, C2, C3 -/

/-- Claim C1 is false as stated: from the empty engine,
`add('hello hello', 'k')` inserts `hello` with count 2 (the per-call count),
but `remove('hello hello', 'k')` decrements the count only by 1, so the word
survives with count 1 and the state is not restored. -/
theorem c1_counterexample :
    (emptyJsse.add "hello hello" (some "k")).remove "hello hello" (some "k") ≠
      emptyJsse := by
  decide

/-- Claim C2 is false as stated: in the reachable state built by
`add('ab', 'k'); add('ab', 'k2')` the entry for `ab` has keys `['k', 'k2']`;
`remove('ab', 'k')` is claimed to leave `'k2'` in place, but
`removeFromArray` (whose `splice(i)` removes every element from position `i`
on) empties the whole list. -/
theorem c2_counterexample :
    (objGet ((emptyJsse.add "ab" (some "k")).add "ab"
        (some "k2")).collection "ab").map WordEntry.keys = some ["k", "k2"] ∧
    (objGet (((emptyJsse.add "ab" (some "k")).add "ab" (some "k2")).remove
        "ab" (some "k")).collection "ab").map WordEntry.keys = some [] := by
  decide

/-- Claim C3 is false as stated: with `cart` indexed and the query `cart ca`,
the expansion overwrites the seed entry for `cart` with `orig = 'ca'` (the
later token in iteration order), so the computed `queryWordCount` is 1 while
the query has 2 distinct normalized tokens of length at least 2. -/
theorem c3_counterexample :
    querySize ((emptyJsse.add "cart" none).indexAgainst "cart ca") = 1 ∧
    specQueryTokenCount "cart ca" = 2 := by
  decide

/-! ## Lemmas about removeFromArray -/

theorem rfaGo_no_hit (item : String) (a : List String) (n : Nat)
    (h : ∀ i, i < n → a.getD i "" ≠ item) : rfaGo item a n = a := by
  induction n with
  | zero => rfl
  | succ n ih =>
    have hne : a.getD n "" ≠ item := h n (Nat.lt_succ_self n)
    rw [rfaGo, if_neg hne]
    exact ih (fun i hi => h i (Nat.lt_succ_of_lt hi))

theorem takeWhile_eq_of_getD (a : List String) (item : String) (n : Nat)
    (hn : n < a.length) (hhit : a.getD n "" = item) :
    a.takeWhile (fun x => x ≠ item) = (a.take n).takeWhile (fun x => x ≠ item) := by
  induction a generalizing n with
  | nil => simp at hn
  | cons x rest ih =>
    cases n with
    | zero =>
      simp only [List.getD_cons_zero] at hhit
      simp [List.takeWhile, hhit]
    | succ n =>
      simp only [List.length_cons, Nat.succ_lt_succ_iff] at hn
      simp only [List.getD_cons_succ] at hhit
      by_cases hx : x = item
      · simp [List.takeWhile, hx]
      · simp only [List.take_succ_cons, List.takeWhile]
        have hx' : (decide (x ≠ item)) = true := by simp [hx]
        rw [hx', ih n hn hhit]

theorem rfaGo_eq_takeWhile (item : String) (n : Nat) :
    ∀ a : List String, n ≤ a.length →
      (∀ i, n ≤ i → i < a.length → a.getD i "" ≠ item) →
      rfaGo item a n = a.takeWhile (fun x => x ≠ item) := by
  induction n with
  | zero =>
    intro a _ h
    have : a.takeWhile (fun x => x ≠ item) = a := by
      apply List.takeWhile_eq_self_iff.mpr
      intro x hx
      obtain ⟨i, hi, hget⟩ := List.mem_iff_getElem.mp hx
      have := h i (Nat.zero_le i) hi
      rw [List.getD_eq_getElem a "" hi, hget] at this
      simp [this]
    rw [this]
    rfl
  | succ n ih =>
    intro a hn h
    by_cases hhit : a.getD n "" = item
    · rw [rfaGo, if_pos hhit]
      have hlen : (a.take n).length = n := by
        rw [List.length_take]
        omega
      have := ih (a.take n) (le_of_eq hlen.symm) (fun i hi hilt => by omega)
      rw [this]
      exact (takeWhile_eq_of_getD a item n (by omega) hhit).symm
    · rw [rfaGo, if_neg hhit]
      exact ih a (by omega) (fun i hi hilt => by
        rcases Nat.eq_or_lt_of_le hi with heq | hlt
        · rw [← heq]; exact hhit
        · exact h i hlt hilt)

/-- `removeFromArray(a, item)` truncates `a` at the first occurrence of
`item`: it equals the longest prefix of `a` not containing `item`. -/
theorem removeFromArray_eq_takeWhile (a : List String) (item : String) :
    removeFromArray a item = a.takeWhile (fun x => x ≠ item) := by
  unfold removeFromArray
  by_cases h : a.length = 0
  · rw [if_pos h]
    rw [List.length_eq_zero] at h
    subst h
    rfl
  · rw [if_neg h]
    exact rfaGo_eq_takeWhile item a.length a le_rfl (fun i hi hilt => by omega)

/-- If `item` does not occur in `a`, removing it from `a ++ [item]` restores
`a` exactly. -/
theorem removeFromArray_append_self (a : List String) (item : String)
    (h : item ∉ a) : removeFromArray (a ++ [item]) item = a := by
  rw [removeFromArray_eq_takeWhile]
  induction a with
  | nil => simp
  | cons x rest ih =>
    simp only [List.mem_cons, not_or] at h
    have hx : (decide (x ≠ item)) = true := decide_eq_true (fun hh => h.1 hh.symm)
    rw [List.cons_append, List.takeWhile_cons, hx, if_pos rfl, ih h.2]

/-! ## Characterization of the `_merge` loop -/

theorem mergeStep_collection (k : Option String) (e : Jsse) (p : String × IdxRec) :
    (mergeStep k e p).collection =
      objSet e.collection p.1 (mergedEntry (objGet e.collection p.1) p.2 k) := by
  unfold mergeStep
  cases h : objGet e.collection p.1 <;> simp [mergedEntry]

theorem mergeStep_size (k : Option String) (e : Jsse) (p : String × IdxRec) :
    (mergeStep k e p).size =
      e.size + (if objGet e.collection p.1 = none then 1 else 0) := by
  unfold mergeStep
  cases h : objGet e.collection p.1 <;> simp

theorem mergeStep_get_ne (k : Option String) (e : Jsse) (p : String × IdxRec)
    (w : String) (hw : w ≠ p.1) :
    objGet (mergeStep k e p).collection w = objGet e.collection w := by
  rw [mergeStep_collection]
  exact objGet_objSet_ne _ _ _ _ (fun hh => hw hh.symm)

theorem mergeStep_get_self (k : Option String) (e : Jsse) (p : String × IdxRec) :
    objGet (mergeStep k e p).collection p.1 =
      some (mergedEntry (objGet e.collection p.1) p.2 k) := by
  rw [mergeStep_collection]
  exact objGet_objSet_self _ _ _

theorem mergeStep_nodup (k : Option String) (e : Jsse) (p : String × IdxRec)
    (h : (e.collection.map Prod.fst).Nodup) :
    ((mergeStep k e p).collection.map Prod.fst).Nodup := by
  rw [mergeStep_collection]
  exact objSet_nodup _ _ _ h

theorem mergeStep_length (k : Option String) (e : Jsse) (p : String × IdxRec) :
    (mergeStep k e p).collection.length =
      e.collection.length + (if objGet e.collection p.1 = none then 1 else 0) := by
  rw [mergeStep_collection]
  by_cases h : objGet e.collection p.1 = none
  · rw [objSet_length_absent _ _ _ h, if_pos h]
  · rw [objSet_length_present _ _ _ h, if_neg h]
    simp

theorem newCount_congr (idx : Obj IdxRec) (e1 e2 : Jsse)
    (h : ∀ p ∈ idx, objGet e1.collection p.1 = objGet e2.collection p.1) :
    newCount idx e1 = newCount idx e2 := by
  unfold newCount
  rw [List.filter_congr (fun p hp => by rw [h p hp])]

theorem newCount_cons (p : String × IdxRec) (rest : Obj IdxRec) (e : Jsse) :
    newCount (p :: rest) e =
      (if objGet e.collection p.1 = none then 1 else 0) + newCount rest e := by
  unfold newCount
  rw [List.filter_cons]
  by_cases h : objGet e.collection p.1 = none <;> simp [h, Nat.add_comm]

theorem merge__get_notin (idx : Obj IdxRec) (k : Option String) (e : Jsse)
    (w : String) (hw : w ∉ idx.map Prod.fst) :
    objGet (e.merge_ idx k).collection w = objGet e.collection w := by
  induction idx generalizing e with
  | nil => rfl
  | cons p rest ih =>
    simp only [List.map_cons, List.mem_cons, not_or] at hw
    show objGet ((mergeStep k e p).merge_ rest k).collection w = _
    rw [ih _ hw.2, mergeStep_get_ne _ _ _ _ hw.1]

theorem merge__get_in (idx : Obj IdxRec) (k : Option String) (e : Jsse)
    (w : String) (r : IdxRec) (hnd : (idx.map Prod.fst).Nodup)
    (hin : (w, r) ∈ idx) :
    objGet (e.merge_ idx k).collection w =
      some (mergedEntry (objGet e.collection w) r k) := by
  induction idx generalizing e with
  | nil => simp at hin
  | cons p rest ih =>
    simp only [List.map_cons, List.nodup_cons] at hnd
    show objGet ((mergeStep k e p).merge_ rest k).collection w = _
    rcases List.mem_cons.mp hin with heq | hmem
    · subst heq
      rw [merge__get_notin _ _ _ _ hnd.1]
      exact mergeStep_get_self k e (w, r)
    · have hwne : w ≠ p.1 := by
        intro hh
        exact hnd.1 (hh ▸ (List.mem_map.mpr ⟨(w, r), hmem, rfl⟩))
      rw [ih _ hnd.2 hmem, mergeStep_get_ne _ _ _ _ hwne]

theorem merge__size (idx : Obj IdxRec) (k : Option String) (e : Jsse)
    (hnd : (idx.map Prod.fst).Nodup) :
    (e.merge_ idx k).size = e.size + (newCount idx e : Int) := by
  induction idx generalizing e with
  | nil => simp [Jsse.merge_, newCount]
  | cons p rest ih =>
    simp only [List.map_cons, List.nodup_cons] at hnd
    show ((mergeStep k e p).merge_ rest k).size = _
    rw [ih _ hnd.2, mergeStep_size]
    have hcongr : newCount rest (mergeStep k e p) = newCount rest e := by
      apply newCount_congr
      intro q hq
      apply mergeStep_get_ne
      intro hh
      exact hnd.1 (hh ▸ (List.mem_map.mpr ⟨q, hq, rfl⟩))
    rw [hcongr, newCount_cons]
    by_cases h : objGet e.collection p.1 = none <;> simp [h] <;> push_cast <;> ring

theorem merge__length (idx : Obj IdxRec) (k : Option String) (e : Jsse)
    (hnd : (idx.map Prod.fst).Nodup) :
    (e.merge_ idx k).collection.length = e.collection.length + newCount idx e := by
  induction idx generalizing e with
  | nil => simp [Jsse.merge_, newCount]
  | cons p rest ih =>
    simp only [List.map_cons, List.nodup_cons] at hnd
    show ((mergeStep k e p).merge_ rest k).collection.length = _
    rw [ih _ hnd.2, mergeStep_length]
    have hcongr : newCount rest (mergeStep k e p) = newCount rest e := by
      apply newCount_congr
      intro q hq
      apply mergeStep_get_ne
      intro hh
      exact hnd.1 (hh ▸ (List.mem_map.mpr ⟨q, hq, rfl⟩))
    rw [hcongr, newCount_cons]
    omega

theorem merge__nodup (idx : Obj IdxRec) (k : Option String) (e : Jsse)
    (h : (e.collection.map Prod.fst).Nodup) :
    ((e.merge_ idx k).collection.map Prod.fst).Nodup := by
  induction idx generalizing e with
  | nil => exact h
  | cons p rest ih =>
    exact ih _ (mergeStep_nodup _ _ _ h)

/-! ## Characterization of the `_remove` loop -/

theorem removeStep_cases (k : Option String) (e : Jsse) (p : String × IdxRec) :
    (removeStep k e p).collection =
      (match objGet e.collection p.1 with
        | none => e.collection
        | some entry =>
          if entry.count - 1 = 0 then objDel e.collection p.1
          else objSet e.collection p.1 (removedEntry entry k)) ∧
    (removeStep k e p).size = e.size - (if isDelIn e p then 1 else 0) := by
  unfold removeStep isDelIn
  cases h : objGet e.collection p.1 with
  | none => simp
  | some entry =>
    dsimp only
    by_cases hz : entry.count - 1 = 0
    · rw [if_pos (show ({ entry with
          count := entry.count - 1,
          keys := if keyTruthy k then removeFromArray entry.keys (keyVal k)
                  else entry.keys } : WordEntry).count = 0 from hz)]
      simp [hz, removedEntry]
    · rw [if_neg (show ¬({ entry with
          count := entry.count - 1,
          keys := if keyTruthy k then removeFromArray entry.keys (keyVal k)
                  else entry.keys } : WordEntry).count = 0 from hz)]
      simp [hz, removedEntry]

theorem removeStep_get_ne (k : Option String) (e : Jsse) (p : String × IdxRec)
    (w : String) (hw : w ≠ p.1) :
    objGet (removeStep k e p).collection w = objGet e.collection w := by
  rw [(removeStep_cases k e p).1]
  cases h : objGet e.collection p.1 with
  | none => rfl
  | some entry =>
    dsimp only
    by_cases hz : entry.count - 1 = 0
    · rw [if_pos hz]
      exact objGet_objDel_ne _ _ _ (fun hh => hw hh.symm)
    · rw [if_neg hz]
      exact objGet_objSet_ne _ _ _ _ (fun hh => hw hh.symm)

theorem removeStep_get_self (k : Option String) (e : Jsse) (p : String × IdxRec) :
    objGet (removeStep k e p).collection p.1 =
      removedLookup (objGet e.collection p.1) k := by
  rw [(removeStep_cases k e p).1]
  cases h : objGet e.collection p.1 with
  | none => exact h
  | some entry =>
    dsimp only [removedLookup]
    by_cases hz : entry.count - 1 = 0
    · rw [if_pos hz, if_pos hz]
      exact objGet_objDel_self _ _
    · rw [if_neg hz, if_neg hz]
      exact objGet_objSet_self _ _ _

theorem removeStep_nodup (k : Option String) (e : Jsse) (p : String × IdxRec)
    (h : (e.collection.map Prod.fst).Nodup) :
    ((removeStep k e p).collection.map Prod.fst).Nodup := by
  rw [(removeStep_cases k e p).1]
  cases hg : objGet e.collection p.1 with
  | none => exact h
  | some entry =>
    dsimp only
    by_cases hz : entry.count - 1 = 0
    · rw [if_pos hz]
      exact objDel_nodup _ _ h
    · rw [if_neg hz]
      exact objSet_nodup _ _ _ h

theorem removeStep_length (k : Option String) (e : Jsse) (p : String × IdxRec)
    (hnd : (e.collection.map Prod.fst).Nodup) :
    (removeStep k e p).collection.length + (if isDelIn e p then 1 else 0) =
      e.collection.length := by
  rw [(removeStep_cases k e p).1]
  unfold isDelIn
  cases hg : objGet e.collection p.1 with
  | none => simp
  | some entry =>
    dsimp only
    by_cases hz : entry.count - 1 = 0
    · rw [if_pos hz]
      rw [decide_eq_true hz, if_pos rfl]
      exact objDel_length_present _ _ _ hnd hg
    · rw [if_neg hz]
      rw [decide_eq_false hz, if_neg Bool.false_ne_true]
      rw [objSet_length_present _ _ _ (by rw [hg]; exact fun hh => by cases hh)]
      omega

theorem delCount_congr (idx : Obj IdxRec) (e1 e2 : Jsse)
    (h : ∀ p ∈ idx, objGet e1.collection p.1 = objGet e2.collection p.1) :
    delCount idx e1 = delCount idx e2 := by
  have hpt : ∀ p ∈ idx, isDelIn e1 p = isDelIn e2 p := by
    intro p hp
    unfold isDelIn
    rw [h p hp]
  unfold delCount
  rw [List.filter_congr hpt]

theorem delCount_cons (p : String × IdxRec) (rest : Obj IdxRec) (e : Jsse) :
    delCount (p :: rest) e =
      (if isDelIn e p then 1 else 0) + delCount rest e := by
  unfold delCount
  rw [List.filter_cons]
  by_cases h : isDelIn e p <;> simp [h, Nat.add_comm]

theorem remove__get_notin (idx : Obj IdxRec) (k : Option String) (e : Jsse)
    (w : String) (hw : w ∉ idx.map Prod.fst) :
    objGet (e.remove_ idx k).collection w = objGet e.collection w := by
  induction idx generalizing e with
  | nil => rfl
  | cons p rest ih =>
    simp only [List.map_cons, List.mem_cons, not_or] at hw
    show objGet ((removeStep k e p).remove_ rest k).collection w = _
    rw [ih _ hw.2, removeStep_get_ne _ _ _ _ hw.1]

theorem remove__get_in (idx : Obj IdxRec) (k : Option String) (e : Jsse)
    (w : String) (r : IdxRec) (hnd : (idx.map Prod.fst).Nodup)
    (hin : (w, r) ∈ idx) :
    objGet (e.remove_ idx k).collection w =
      removedLookup (objGet e.collection w) k := by
  induction idx generalizing e with
  | nil => simp at hin
  | cons p rest ih =>
    simp only [List.map_cons, List.nodup_cons] at hnd
    show objGet ((removeStep k e p).remove_ rest k).collection w = _
    rcases List.mem_cons.mp hin with heq | hmem
    · subst heq
      rw [remove__get_notin _ _ _ _ hnd.1]
      exact removeStep_get_self k e (w, r)
    · have hwne : w ≠ p.1 := by
        intro hh
        exact hnd.1 (hh ▸ (List.mem_map.mpr ⟨(w, r), hmem, rfl⟩))
      rw [ih _ hnd.2 hmem, removeStep_get_ne _ _ _ _ hwne]

theorem remove__size (idx : Obj IdxRec) (k : Option String) (e : Jsse)
    (hnd : (idx.map Prod.fst).Nodup) :
    (e.remove_ idx k).size = e.size - (delCount idx e : Int) := by
  induction idx generalizing e with
  | nil => simp [Jsse.remove_, delCount]
  | cons p rest ih =>
    simp only [List.map_cons, List.nodup_cons] at hnd
    show ((removeStep k e p).remove_ rest k).size = _
    rw [ih _ hnd.2, (removeStep_cases k e p).2]
    have hcongr : delCount rest (removeStep k e p) = delCount rest e := by
      apply delCount_congr
      intro q hq
      apply removeStep_get_ne
      intro hh
      exact hnd.1 (hh ▸ (List.mem_map.mpr ⟨q, hq, rfl⟩))
    rw [hcongr, delCount_cons]
    by_cases h : isDelIn e p <;> simp [h] <;> push_cast <;> ring

theorem remove__length (idx : Obj IdxRec) (k : Option String) (e : Jsse)
    (hnd : (idx.map Prod.fst).Nodup)
    (hcnd : (e.collection.map Prod.fst).Nodup) :
    (e.remove_ idx k).collection.length + delCount idx e =
      e.collection.length := by
  induction idx generalizing e with
  | nil => simp [Jsse.remove_, delCount]
  | cons p rest ih =>
    simp only [List.map_cons, List.nodup_cons] at hnd
    show ((removeStep k e p).remove_ rest k).collection.length + _ = _
    have hcongr : delCount rest (removeStep k e p) = delCount rest e := by
      apply delCount_congr
      intro q hq
      apply removeStep_get_ne
      intro hh
      exact hnd.1 (hh ▸ (List.mem_map.mpr ⟨q, hq, rfl⟩))
    have hstep := removeStep_length k e p hcnd
    have hih := ih _ hnd.2 (removeStep_nodup k e p hcnd)
    rw [hcongr] at hih
    rw [delCount_cons]
    omega

theorem remove__nodup (idx : Obj IdxRec) (k : Option String) (e : Jsse)
    (h : (e.collection.map Prod.fst).Nodup) :
    ((e.remove_ idx k).collection.map Prod.fst).Nodup := by
  induction idx generalizing e with
  | nil => exact h
  | cons p rest ih =>
    exact ih _ (removeStep_nodup _ _ _ h)

/-! ## The per-call index has distinct words -/

theorem jsIndexStep_nodup (index : Obj IdxRec) (w : String)
    (h : (index.map Prod.fst).Nodup) :
    ((jsIndexStep index w).map Prod.fst).Nodup := by
  unfold jsIndexStep
  dsimp only
  by_cases hlen : (normalize w).length < 2
  · rw [if_pos hlen]
    exact h
  · rw [if_neg hlen]
    cases objGet index (normalize w) <;> exact objSet_nodup _ _ _ h

theorem jsIndex_foldl_nodup (ws : List String) (acc : Obj IdxRec)
    (h : (acc.map Prod.fst).Nodup) :
    ((ws.foldl jsIndexStep acc).map Prod.fst).Nodup := by
  induction ws generalizing acc with
  | nil => exact h
  | cons w rest ih => exact ih _ (jsIndexStep_nodup _ _ h)

theorem jsIndex_nodup (str : String) : ((jsIndex str).map Prod.fst).Nodup := by
  unfold jsIndex
  by_cases h : str = ""
  · rw [if_pos h]
    exact List.nodup_nil
  · rw [if_neg h]
    exact jsIndex_foldl_nodup _ _ List.nodup_nil

/-! ## Preservation of the structural invariant (claim C7) -/

theorem merge__inv (e : Jsse) (idx : Obj IdxRec) (k : Option String)
    (hnd : (idx.map Prod.fst).Nodup) (h : e.Inv) : (e.merge_ idx k).Inv := by
  constructor
  · rw [merge__size _ _ _ hnd, merge__length _ _ _ hnd, h.1]
    push_cast
    ring
  · exact merge__nodup _ _ _ h.2

theorem remove__inv (e : Jsse) (idx : Obj IdxRec) (k : Option String)
    (hnd : (idx.map Prod.fst).Nodup) (h : e.Inv) : (e.remove_ idx k).Inv := by
  constructor
  · have hlen := remove__length idx k e hnd h.2
    rw [remove__size _ _ _ hnd, h.1]
    omega
  · exact remove__nodup _ _ _ h.2

theorem add_inv (e : Jsse) (str : String) (key : Option String) (h : e.Inv) :
    (e.add str key).Inv := by
  by_cases ht : keyTruthy key = true
  · have hadd : e.add str key =
        ({ e with keys := objSet e.keys (keyVal key) str }).merge_ (jsIndex str) key := by
      simp only [Jsse.add, ht, if_true]
    rw [hadd]
    exact merge__inv _ _ _ (jsIndex_nodup str) ⟨h.1, h.2⟩
  · have hadd : e.add str key = e.merge_ (jsIndex str) key := by
      simp only [Jsse.add, ht, if_false]
      rfl
    rw [hadd]
    exact merge__inv _ _ _ (jsIndex_nodup str) h

theorem remove_inv (e : Jsse) (str : String) (key : Option String) (h : e.Inv) :
    (e.remove str key).Inv := by
  by_cases hs : e.size = 0
  · have : e.remove str key = e := by simp only [Jsse.remove, hs, if_true]
    rw [this]
    exact h
  · have h1 : (e.remove_ (jsIndex str) key).Inv :=
      remove__inv _ _ _ (jsIndex_nodup str) h
    by_cases ht : keyTruthy key = true
    · have : e.remove str key =
          { e.remove_ (jsIndex str) key with
            keys := objDel (e.remove_ (jsIndex str) key).keys (keyVal key) } := by
        simp only [Jsse.remove, hs, if_false, ht, if_true]
      rw [this]
      exact ⟨h1.1, h1.2⟩
    · have : e.remove str key = e.remove_ (jsIndex str) key := by
        simp only [Jsse.remove, hs, if_false, ht]
        rfl
      rw [this]
      exact h1

theorem reachable_inv {e : Jsse} (h : Reachable e) : e.Inv := by
  induction h with
  | empty => exact ⟨rfl, List.nodup_nil⟩
  | add str key _ ih => exact add_inv _ str key ih
  | remove str key _ ih => exact remove_inv _ str key ih
  | clear _ ih => exact ⟨rfl, List.nodup_nil⟩
  | mtch str mode0 _ ih => exact ih

/-- Claim C7: in every state reachable from the empty engine by any sequence
of `add`, `remove`, `match` and `clear` operations, the `size` counter equals
the number of words in the Collection mapping. -/
theorem c7_size_invariant (e : Jsse) (h : Reachable e) :
    e.size = (e.collection.length : Int) :=
  (reachable_inv h).1

/-- Witness for claim C7 at a concrete reachable state. -/
theorem c7_size_invariant_witness :
    ((emptyJsse.add "red car" (some "k")).remove "car" (some "k")).size =
      ((((emptyJsse.add "red car" (some "k")).remove "car"
          (some "k")).collection.length : Nat) : Int) :=
  c7_size_invariant _
    (Reachable.remove "car" (some "k") (Reachable.add "red car" (some "k") Reachable.empty))

/-! ## Claim C2 (amended): per-word behaviour of the `_remove` loop -/

/-- Claim C2 (amended): for every call to `_remove` with a truthy supplied key
`K` and every word of the per-call index present in the (duplicate-free)
Collection, the word's `count` is decremented by 1 and its `keys` list is
truncated at the first occurrence of `K` — `K` and every element after it are
removed (`removeFromArray`'s `splice(i)` removes the tail, not one element);
if the decremented count reaches 0 the entry is deleted; the size drops by
exactly the number of deleted words of the index. -/
theorem c2_remove_word (e : Jsse) (T k : String) (hk : k ≠ "")
    (hnd : (e.collection.map Prod.fst).Nodup)
    (w : String) (r : IdxRec) (hw : (w, r) ∈ jsIndex T) (entry : WordEntry)
    (hentry : objGet e.collection w = some entry) :
    (objGet (e.remove_ (jsIndex T) (some k)).collection w =
      if entry.count - 1 = 0 then none
      else some { weight := entry.weight, count := entry.count - 1,
                  keys := entry.keys.takeWhile (fun x => x ≠ k) }) ∧
    (e.remove_ (jsIndex T) (some k)).size = e.size - (delCount (jsIndex T) e : Int) := by
  have ht : keyTruthy (some k) = true := by
    simp [keyTruthy, hk]
  constructor
  · rw [remove__get_in _ _ _ _ r (jsIndex_nodup T) hw, hentry]
    dsimp only [removedLookup, removedEntry]
    rw [ht]
    simp [keyVal, removeFromArray_eq_takeWhile]
  · exact remove__size _ _ _ (jsIndex_nodup T)

/-- Witness for the amended claim C2: removing `'k'` from the entry
`ab ↦ {count 2, keys ['k','k2']}` leaves `{count 1, keys []}`. -/
theorem c2_remove_word_witness :
    (objGet (((emptyJsse.add "ab" (some "k")).add "ab"
        (some "k2")).remove_ (jsIndex "ab") (some "k")).collection "ab" =
      if (2 : Int) - 1 = 0 then none
      else some { weight := 2, count := (2 : Int) - 1,
                  keys := ["k", "k2"].takeWhile (fun x => x ≠ "k") }) ∧
    (((emptyJsse.add "ab" (some "k")).add "ab" (some "k2")).remove_ (jsIndex "ab")
        (some "k")).size =
      ((emptyJsse.add "ab" (some "k")).add "ab" (some "k2")).size -
        (delCount (jsIndex "ab") ((emptyJsse.add "ab" (some "k")).add "ab"
          (some "k2")) : Int) :=
  c2_remove_word ((emptyJsse.add "ab" (some "k")).add "ab" (some "k2")) "ab" "k"
    (by decide) (by decide) "ab" ⟨2, 1⟩ (by decide) ⟨2, 2, ["k", "k2"]⟩ (by decide)

/-! ## Claim C1 (amended): the add/remove round trip -/

theorem roundtrip_core (e : Jsse) (idx : Obj IdxRec) (k : String) (hk : k ≠ "")
    (hnd : (idx.map Prod.fst).Nodup)
    (hwords : ∀ p ∈ idx, roundtripOk e k p = true) :
    ((e.merge_ idx (some k)).remove_ idx (some k)).size = e.size ∧
    (∀ w, objGet ((e.merge_ idx (some k)).remove_ idx (some k)).collection w =
      objGet e.collection w) := by
  have ht : keyTruthy (some k) = true := by simp [keyTruthy, hk]
  have hget : ∀ p ∈ idx, objGet (e.merge_ idx (some k)).collection p.1 =
      some (mergedEntry (objGet e.collection p.1) p.2 (some k)) := by
    intro p hp
    exact merge__get_in idx (some k) e p.1 p.2 hnd hp
  constructor
  · rw [remove__size _ _ _ hnd, merge__size _ _ _ hnd]
    have hdel : delCount idx (e.merge_ idx (some k)) = newCount idx e := by
      unfold delCount newCount
      rw [List.filter_congr (fun p hp => ?_)]
      have hok := hwords p hp
      unfold roundtripOk at hok
      unfold isDelIn
      rw [hget p hp]
      cases hold : objGet e.collection p.1 with
      | none =>
        rw [hold] at hok
        have hr1 : p.2.count = 1 := of_decide_eq_true hok
        dsimp only [mergedEntry]
        simp [hr1]
      | some entry =>
        rw [hold] at hok
        rw [Bool.and_eq_true] at hok
        have h1 : entry.count ≠ 0 := of_decide_eq_true hok.1
        dsimp only [mergedEntry]
        have hne : ¬(entry.count + 1 - 1 = 0) := by omega
        simp [hne, h1]
    rw [hdel]
    ring
  · intro w
    by_cases hmem : w ∈ idx.map Prod.fst
    · obtain ⟨p, hp, hfst⟩ := List.mem_map.mp hmem
      have hpw : (w, p.2) ∈ idx := by
        rw [← hfst]
        exact hp
      rw [remove__get_in idx (some k) _ w p.2 hnd hpw,
        merge__get_in idx (some k) e w p.2 hnd hpw]
      have hok := hwords _ hpw
      unfold roundtripOk at hok
      cases hold : objGet e.collection w with
      | none =>
        rw [hold] at hok
        have hr1 : p.2.count = 1 := of_decide_eq_true hok
        dsimp only [mergedEntry, removedLookup]
        simp [hr1]
      | some entry =>
        rw [hold] at hok
        rw [Bool.and_eq_true] at hok
        have h1 : entry.count ≠ 0 := of_decide_eq_true hok.1
        have h2 : k ∉ entry.keys := of_decide_eq_true hok.2
        dsimp only [mergedEntry, removedLookup, removedEntry]
        rw [ht]
        rw [if_neg (by omega : ¬(entry.count + 1 - 1 = 0)),
          if_pos rfl]
        dsimp only [keyVal]
        rw [if_pos rfl]
        rw [removeFromArray_append_self _ _ h2]
        obtain ⟨ew, ec, eks⟩ := entry
        simp
    · rw [remove__get_notin _ _ _ _ hmem, merge__get_notin _ _ _ _ hmem]

/-- Claim C1 (amended): `add(T,K)` immediately followed by `remove(T,K)`
restores the size, every Collection entry (weight, count and keys list) and
every KeyStore entry, provided: `K` is truthy and not already in the
KeyStore; every word of `T`'s index already in the Collection has nonzero
count and does not already list `K`; every word of `T`'s index new to the
Collection occurs exactly once in `T`; and the post-add size is nonzero (so
`remove` does not return early).  Each hypothesis is forced by a
counterexample of the unrestricted claim. -/
theorem c1_roundtrip (e : Jsse) (T k : String) (hk : k ≠ "")
    (hkey : objGet e.keys k = none)
    (hwords : ∀ p ∈ jsIndex T, roundtripOk e k p = true)
    (hsz : (e.add T (some k)).size ≠ 0) :
    ((e.add T (some k)).remove T (some k)).size = e.size ∧
    (∀ w, objGet ((e.add T (some k)).remove T (some k)).collection w =
      objGet e.collection w) ∧
    (∀ q, objGet ((e.add T (some k)).remove T (some k)).keys q =
      objGet e.keys q) := by
  have ht : keyTruthy (some k) = true := by simp [keyTruthy, hk]
  have hnd := jsIndex_nodup T
  have hadd : e.add T (some k) =
      ({ e with keys := objSet e.keys k T } : Jsse).merge_ (jsIndex T) (some k) := by
    simp only [Jsse.add, ht, if_true, keyVal]
  have hsz' : (({ e with keys := objSet e.keys k T } : Jsse).merge_ (jsIndex T)
      (some k)).size ≠ 0 := by
    rw [← hadd]
    exact hsz
  have hrem : (e.add T (some k)).remove T (some k) =
      { (({ e with keys := objSet e.keys k T } : Jsse).merge_ (jsIndex T)
          (some k)).remove_ (jsIndex T) (some k) with
        keys := objDel ((({ e with keys := objSet e.keys k T } : Jsse).merge_
          (jsIndex T) (some k)).remove_ (jsIndex T) (some k)).keys k } := by
    rw [hadd]
    simp only [Jsse.remove, hsz', if_false, ht, if_true, keyVal]
  have hcore := roundtrip_core ({ e with keys := objSet e.keys k T } : Jsse)
    (jsIndex T) k hk hnd hwords
  refine ⟨?_, ?_, ?_⟩
  · rw [hrem]
    exact hcore.1
  · intro w
    rw [hrem]
    exact hcore.2 w
  · intro q
    rw [hrem]
    show objGet (objDel ((({ e with keys := objSet e.keys k T } : Jsse).merge_
      (jsIndex T) (some k)).remove_ (jsIndex T) (some k)).keys k) q = _
    rw [remove__keys, merge__keys]
    by_cases hq : q = k
    · subst hq
      rw [objGet_objDel_self, hkey]
    · rw [objGet_objDel_ne _ _ _ (fun hh => hq hh.symm),
        objGet_objSet_ne _ _ _ _ (fun hh => hq hh.symm)]

/-- Witness for the amended claim C1 at a concrete state: the pre-state
indexes `red car` under key `q`; the round trip adds and removes `red blue`
under the fresh key `k`. -/
theorem c1_roundtrip_witness :
    (((emptyJsse.add "red car" (some "q")).add "red blue" (some "k")).remove
      "red blue" (some "k")).size = (emptyJsse.add "red car" (some "q")).size ∧
    objGet (((emptyJsse.add "red car" (some "q")).add "red blue"
      (some "k")).remove "red blue" (some "k")).collection "blue" =
      objGet (emptyJsse.add "red car" (some "q")).collection "blue" ∧
    objGet (((emptyJsse.add "red car" (some "q")).add "red blue"
      (some "k")).remove "red blue" (some "k")).keys "k" =
      objGet (emptyJsse.add "red car" (some "q")).keys "k" := by
  have h := c1_roundtrip (emptyJsse.add "red car" (some "q")) "red blue" "k"
    (by decide) (by decide) (by decide) (by decide)
  exact ⟨h.1, h.2.1 "blue", h.2.2 "k"⟩

/-! ## Claim C6: ALL-mode results are a subset of ANY-mode results -/

theorem matchRun_all_eq (e : Jsse) (q : String) :
    e.matchRun q "all" =
      ((e.indexAgainst q).foldl (matchKeysStep e) []).foldl
        (fun res p =>
          if p.2.length = querySize (e.indexAgainst q) then res ++ [p.1] else res)
        [] := rfl

theorem matchRun_any_eq (e : Jsse) (q : String) :
    e.matchRun q "any" =
      (sort_assoc_array
        (((e.indexAgainst q).foldl (matchKeysStep e) []).foldl
          (fun nb p => objSet nb p.1 (e.nb_keywords_found p.1 q)) [])).map
        Prod.fst := rfl

theorem mem_map_fst_objSet_self {α : Type} (m : Obj α) (k : String) (v : α) :
    k ∈ (objSet m k v).map Prod.fst := by
  by_contra hc
  have h := (objGet_eq_none_iff (objSet m k v) k).mpr hc
  rw [objGet_objSet_self] at h
  cases h

theorem mem_map_fst_objSet_of_mem {α : Type} (m : Obj α) (k x : String) (v : α)
    (h : x ∈ m.map Prod.fst) : x ∈ (objSet m k v).map Prod.fst := by
  by_cases hx : x = k
  · subst hx
    exact mem_map_fst_objSet_self m x v
  · by_contra hc
    have h1 := (objGet_eq_none_iff (objSet m k v) x).mpr hc
    rw [objGet_objSet_ne _ _ _ _ (fun hh => hx hh.symm)] at h1
    exact ((objGet_eq_none_iff m x).mp h1) h

theorem mem_allFold (km : Obj (List String)) (n : Nat) (x : String) :
    ∀ acc, x ∈ km.foldl
      (fun res p => if p.2.length = n then res ++ [p.1] else res) acc →
      x ∈ acc ∨ x ∈ km.map Prod.fst := by
  induction km with
  | nil => exact fun acc h => Or.inl h
  | cons p rest ih =>
    intro acc h
    rcases ih _ h with h1 | h1
    · dsimp only at h1
      by_cases hc : p.2.length = n
      · rw [if_pos hc] at h1
        rcases List.mem_append.mp h1 with h2 | h2
        · exact Or.inl h2
        · right
          simp only [List.mem_singleton] at h2
          simp [h2]
      · rw [if_neg hc] at h1
        exact Or.inl h1
    · right
      simp [h1]

theorem mem_nbFold (km : Obj (List String)) (g : String → Nat) (x : String) :
    ∀ acc : Obj Nat, (x ∈ km.map Prod.fst ∨ x ∈ acc.map Prod.fst) →
      x ∈ (km.foldl (fun nb p => objSet nb p.1 (g p.1)) acc).map Prod.fst := by
  induction km with
  | nil =>
    intro acc h
    rcases h with h | h
    · cases h
    · exact h
  | cons p rest ih =>
    intro acc h
    apply ih
    rcases h with h | h
    · simp only [List.map_cons, List.mem_cons] at h
      rcases h with h1 | h1
      · right
        rw [h1]
        exact mem_map_fst_objSet_self _ _ _
      · left
        exact h1
    · right
      exact mem_map_fst_objSet_of_mem _ _ _ _ h

theorem mem_insertDesc (x y : String × Nat) (l : List (String × Nat)) :
    y ∈ insertDesc x l ↔ y = x ∨ y ∈ l := by
  induction l with
  | nil => simp [insertDesc]
  | cons z rest ih =>
    unfold insertDesc
    by_cases hc : z.2 < x.2
    · rw [if_pos hc]
      simp
    · rw [if_neg hc]
      simp only [List.mem_cons, ih]
      tauto

theorem mem_sort_assoc_array (y : String × Nat) (l : List (String × Nat)) :
    y ∈ sort_assoc_array l ↔ y ∈ l := by
  induction l with
  | nil => simp [sort_assoc_array]
  | cons z rest ih =>
    unfold sort_assoc_array
    rw [mem_insertDesc, ih]
    simp

/-- Claim C6: for every engine state and query, every key returned by
`match(query, 'all')` is also returned by `match(query, 'any')`. -/
theorem c6_all_subset_any (e : Jsse) (q x : String)
    (hx : x ∈ e.matchRun q "all") : x ∈ e.matchRun q "any" := by
  rw [matchRun_all_eq] at hx
  rw [matchRun_any_eq]
  rcases mem_allFold _ _ _ [] hx with h1 | h1
  · cases h1
  · have h2 := mem_nbFold ((e.indexAgainst q).foldl (matchKeysStep e) [])
      (fun y => e.nb_keywords_found y q) x [] (Or.inl h1)
    obtain ⟨p, hp, hfst⟩ := List.mem_map.mp h2
    exact List.mem_map.mpr ⟨p, (mem_sort_assoc_array _ _).mpr hp, hfst⟩

/-- Witness for claim C6 at a concrete state and query. -/
theorem c6_all_subset_any_witness :
    "m" ∈ (emptyJsse.add "red car" (some "m")).matchRun "red" "any" :=
  c6_all_subset_any (emptyJsse.add "red car" (some "m")) "red" "m" (by decide)

/-! ## Further object-model membership lemmas -/

theorem objGet_mem {α : Type} (m : Obj α) (k : String) (v : α)
    (h : objGet m k = some v) : (k, v) ∈ m := by
  induction m with
  | nil => cases h
  | cons p rest ih =>
    obtain ⟨k0, v0⟩ := p
    by_cases h0 : k0 = k
    · subst h0
      simp [objGet] at h
      subst h
      exact List.mem_cons_self _ _
    · simp only [objGet, if_neg h0] at h
      exact List.mem_cons_of_mem _ (ih h)

theorem mem_fst_of_objGet {α : Type} (m : Obj α) (k : String) (v : α)
    (h : objGet m k = some v) : k ∈ m.map Prod.fst := by
  by_contra hc
  rw [← objGet_eq_none_iff] at hc
  rw [h] at hc
  cases hc

theorem mem_objSet {α : Type} (m : Obj α) (k : String) (v : α) (q : String × α) :
    q ∈ objSet m k v → q = (k, v) ∨ q ∈ m := by
  induction m with
  | nil =>
    intro h
    simp only [objSet, List.mem_singleton] at h
    exact Or.inl h
  | cons p rest ih =>
    obtain ⟨k0, v0⟩ := p
    intro h
    by_cases h0 : k0 = k
    · subst h0
      simp only [objSet, if_pos rfl] at h
      rcases List.mem_cons.mp h with h1 | h1
      · exact Or.inl h1
      · exact Or.inr (List.mem_cons_of_mem _ h1)
    · simp only [objSet, if_neg h0] at h
      rcases List.mem_cons.mp h with h1 | h1
      · exact Or.inr (h1 ▸ List.mem_cons_self _ _)
      · rcases ih h1 with h2 | h2
        · exact Or.inl h2
        · exact Or.inr (List.mem_cons_of_mem _ h2)

theorem mem_map_fst_objSet_iff {α : Type} (m : Obj α) (k : String) (v : α)
    (x : String) : x ∈ (objSet m k v).map Prod.fst ↔ x = k ∨ x ∈ m.map Prod.fst := by
  constructor
  · intro h
    obtain ⟨q, hq, hfst⟩ := List.mem_map.mp h
    rcases mem_objSet _ _ _ _ hq with h1 | h1
    · left
      rw [← hfst, h1]
    · right
      exact hfst ▸ List.mem_map.mpr ⟨q, h1, rfl⟩
  · intro h
    rcases h with h | h
    · subst h
      exact mem_map_fst_objSet_self _ _ _
    · exact mem_map_fst_objSet_of_mem _ _ _ _ h

/-! ## Single-token queries (claim C4) -/

theorem splitSpacesAux_no_space :
    ∀ (l acc : List Char), (∀ c ∈ l, c ≠ ' ') →
      splitSpacesAux l acc = [String.mk (acc.reverse ++ l)] := by
  intro l
  induction l with
  | nil => intro acc _; simp [splitSpacesAux]
  | cons c rest ih =>
    intro acc h
    have hc : c ≠ ' ' := h c (List.mem_cons_self _ _)
    unfold splitSpacesAux
    rw [if_neg hc, ih (c :: acc) (fun d hd => h d (List.mem_cons_of_mem _ hd))]
    simp

theorem jsSplitSpace_single (P : String) (h : ∀ c ∈ P.data, c ≠ ' ') :
    jsSplitSpace P = [P] := by
  unfold jsSplitSpace
  rw [splitSpacesAux_no_space _ _ h]
  rfl

theorem jsIndex_single (P : String) (hnorm : normalize P = P) (hlen : 2 ≤ P.length)
    (h : ∀ c ∈ P.data, c ≠ ' ') :
    jsIndex P = [(P, ⟨P.length, 1⟩)] := by
  have hne : P ≠ "" := by
    intro hh
    rw [hh] at hlen
    exact absurd hlen (by decide)
  unfold jsIndex
  rw [if_neg hne, jsSplitSpace_single P h]
  show jsIndexStep [] P = _
  unfold jsIndexStep
  simp only [hnorm]
  rw [if_neg (by omega : ¬P.length < 2)]
  rfl

theorem indexAgainst_single (e : Jsse) (P : String)
    (hidx : jsIndex P = [(P, ⟨P.length, 1⟩)]) :
    e.indexAgainst P = e.collection.foldl (c4Step P) [(P, ⟨P, P.length, 1⟩)] := by
  simp only [Jsse.indexAgainst, hidx]
  rfl

theorem c4_fold_values (P : String) :
    ∀ (l : List (String × WordEntry)) (idx : Obj ARec),
      (∀ pr ∈ idx, pr.2 = (⟨P, P.length, 1⟩ : ARec)) →
      ∀ pr ∈ l.foldl (c4Step P) idx, pr.2 = (⟨P, P.length, 1⟩ : ARec) := by
  intro l
  induction l with
  | nil => exact fun idx h => h
  | cons q rest ih =>
    intro idx h
    apply ih
    intro pr hpr
    unfold c4Step at hpr
    by_cases hc : P.data.isPrefixOf q.1.data = true
    · rw [if_pos hc] at hpr
      rcases mem_objSet _ _ _ _ hpr with h1 | h1
      · rw [h1]
      · exact h pr h1
    · rw [if_neg hc] at hpr
      exact h pr hpr

theorem c4_fold_nodup (P : String) :
    ∀ (l : List (String × WordEntry)) (idx : Obj ARec),
      ((idx.map Prod.fst).Nodup) → (((l.foldl (c4Step P) idx).map Prod.fst).Nodup) := by
  intro l
  induction l with
  | nil => exact fun idx h => h
  | cons q rest ih =>
    intro idx h
    apply ih
    unfold c4Step
    by_cases hc : P.data.isPrefixOf q.1.data = true
    · rw [if_pos hc]
      exact objSet_nodup _ _ _ h
    · rw [if_neg hc]
      exact h

theorem c4_fold_mono (P : String) :
    ∀ (l : List (String × WordEntry)) (idx : Obj ARec) (w : String),
      w ∈ idx.map Prod.fst → w ∈ (l.foldl (c4Step P) idx).map Prod.fst := by
  intro l
  induction l with
  | nil => exact fun idx w h => h
  | cons q rest ih =>
    intro idx w h
    apply ih
    unfold c4Step
    by_cases hc : P.data.isPrefixOf q.1.data = true
    · rw [if_pos hc]
      exact mem_map_fst_objSet_of_mem _ _ _ _ h
    · rw [if_neg hc]
      exact h

theorem c4_fold_covers (P : String) :
    ∀ (l : List (String × WordEntry)) (idx : Obj ARec) (q : String × WordEntry),
      q ∈ l → P.data.isPrefixOf q.1.data = true →
      q.1 ∈ (l.foldl (c4Step P) idx).map Prod.fst := by
  intro l
  induction l with
  | nil => intro idx q hq; cases hq
  | cons q0 rest ih =>
    intro idx q hq hpre
    rcases List.mem_cons.mp hq with h1 | h1
    · subst h1
      rw [List.foldl_cons]
      apply c4_fold_mono
      unfold c4Step
      rw [if_pos hpre]
      exact mem_map_fst_objSet_self _ _ _
    · rw [List.foldl_cons]
      exact ih _ _ h1 hpre

/-! ## Counting the exact-match seed entries -/

theorem querySize_foldl (l : Obj ARec) :
    ∀ n0 : Nat, l.foldl (fun n p => if p.1 = p.2.orig then n + 1 else n) n0 =
      n0 + (l.filter (fun p => decide (p.1 = p.2.orig))).length := by
  induction l with
  | nil => intro n0; simp
  | cons p rest ih =>
    intro n0
    show List.foldl _ (if p.1 = p.2.orig then n0 + 1 else n0) rest = _
    rw [ih, List.filter_cons]
    by_cases hc : p.1 = p.2.orig
    · simp [hc]
      omega
    · simp [hc]

theorem querySize_eq_filter (idx : Obj ARec) :
    querySize idx = (idx.filter (fun p => decide (p.1 = p.2.orig))).length := by
  unfold querySize
  rw [querySize_foldl]
  omega

theorem filter_fst_eq_length_one {α : Type} :
    ∀ (l : List (String × α)) (P : String), ((l.map Prod.fst).Nodup) →
      P ∈ l.map Prod.fst →
      (l.filter (fun pr => decide (pr.1 = P))).length = 1 := by
  intro l
  induction l with
  | nil => intro P _ hmem; cases hmem
  | cons q rest ih =>
    intro P hnd hmem
    simp only [List.map_cons, List.nodup_cons] at hnd
    rw [List.filter_cons]
    by_cases hq : q.1 = P
    · have hnp : P ∉ rest.map Prod.fst := hq ▸ hnd.1
      have hrest : rest.filter (fun pr => decide (pr.1 = P)) = [] := by
        apply List.filter_eq_nil_iff.mpr
        intro pr hpr
        simp only [decide_eq_true_eq]
        intro heq
        exact hnp (heq ▸ List.mem_map.mpr ⟨pr, hpr, rfl⟩)
      simp [hq, hrest]
    · have hmem' : P ∈ rest.map Prod.fst := by
        simp only [List.map_cons, List.mem_cons] at hmem
        rcases hmem with h1 | h1
        · exact absurd h1.symm hq
        · exact h1
      simp only [hq, decide_eq_true_eq, if_neg hq]
      exact ih P hnd.2 hmem'

/-! ## The key-collection pass of `Jsse.match` -/

theorem matchKeysInner_values (P' key : String) (ks : Obj (List String))
    (hinv : ∀ q ∈ ks, q.2 = [P']) :
    ∀ q ∈ matchKeysInner P' ks key, q.2 = [P'] := by
  intro q hq
  unfold matchKeysInner at hq
  cases hg : objGet ks key with
  | none =>
    rw [hg] at hq
    rcases mem_objSet _ _ _ _ hq with h1 | h1
    · rw [h1]
    · exact hinv _ h1
  | some origs =>
    rw [hg] at hq
    dsimp only at hq
    have ho : origs = [P'] := hinv _ (objGet_mem _ _ _ hg)
    rw [ho] at hq
    rw [if_pos (by simp : ([P'].contains P') = true)] at hq
    exact hinv _ hq

theorem matchKeysInner_mono (P' key x : String) (ks : Obj (List String))
    (h : x ∈ ks.map Prod.fst) : x ∈ (matchKeysInner P' ks key).map Prod.fst := by
  unfold matchKeysInner
  cases hg : objGet ks key with
  | none => exact mem_map_fst_objSet_of_mem _ _ _ _ h
  | some origs =>
    dsimp only
    by_cases hc : origs.contains P' = true
    · rw [if_pos hc]
      exact h
    · rw [if_neg hc]
      exact mem_map_fst_objSet_of_mem _ _ _ _ h

theorem innerFold_values (P' : String) :
    ∀ (kl : List String) (ks : Obj (List String)),
      (∀ q ∈ ks, q.2 = [P']) →
      ∀ q ∈ kl.foldl (matchKeysInner P') ks, q.2 = [P'] := by
  intro kl
  induction kl with
  | nil => exact fun ks h => h
  | cons y rest ih =>
    intro ks h
    exact ih _ (matchKeysInner_values P' y ks h)

theorem innerFold_mono (P' : String) :
    ∀ (kl : List String) (ks : Obj (List String)) (x : String),
      x ∈ ks.map Prod.fst → x ∈ (kl.foldl (matchKeysInner P') ks).map Prod.fst := by
  intro kl
  induction kl with
  | nil => exact fun ks x h => h
  | cons y rest ih =>
    intro ks x h
    exact ih _ _ (matchKeysInner_mono P' y x ks h)

theorem innerFold_adds (P' : String) :
    ∀ (kl : List String) (ks : Obj (List String)) (x : String),
      x ∈ kl → x ∈ (kl.foldl (matchKeysInner P') ks).map Prod.fst := by
  intro kl
  induction kl with
  | nil => intro ks x h; cases h
  | cons y rest ih =>
    intro ks x h
    rcases List.mem_cons.mp h with h1 | h1
    · subst h1
      rw [List.foldl_cons]
      apply innerFold_mono
      unfold matchKeysInner
      cases hg : objGet ks x with
      | none => exact mem_map_fst_objSet_self _ _ _
      | some origs =>
        dsimp only
        by_cases hc : origs.contains P' = true
        · rw [if_pos hc]
          exact mem_fst_of_objGet _ _ _ hg
        · rw [if_neg hc]
          exact mem_map_fst_objSet_self _ _ _
    · rw [List.foldl_cons]
      exact ih _ _ h1

theorem kmFold_values (e : Jsse) (P' : String) :
    ∀ (il : Obj ARec) (ks : Obj (List String)),
      (∀ pr ∈ il, pr.2.orig = P') → (∀ q ∈ ks, q.2 = [P']) →
      ∀ q ∈ il.foldl (matchKeysStep e) ks, q.2 = [P'] := by
  intro il
  induction il with
  | nil => exact fun ks _ h => h
  | cons p rest ih =>
    intro ks hil h
    apply ih _ (fun pr hpr => hil pr (List.mem_cons_of_mem _ hpr))
    show ∀ q ∈ matchKeysStep e ks p, q.2 = [P']
    unfold matchKeysStep
    cases hg : objGet e.collection p.1 with
    | none => exact h
    | some found =>
      dsimp only
      rw [hil p (List.mem_cons_self _ _)]
      exact innerFold_values P' _ _ h

theorem kmFold_mono (e : Jsse) :
    ∀ (il : Obj ARec) (ks : Obj (List String)) (x : String),
      x ∈ ks.map Prod.fst → x ∈ (il.foldl (matchKeysStep e) ks).map Prod.fst := by
  intro il
  induction il with
  | nil => exact fun ks x h => h
  | cons p rest ih =>
    intro ks x h
    apply ih
    show x ∈ (matchKeysStep e ks p).map Prod.fst
    unfold matchKeysStep
    cases hg : objGet e.collection p.1 with
    | none => exact h
    | some found => exact innerFold_mono _ _ _ _ h

theorem kmFold_adds (e : Jsse) :
    ∀ (il : Obj ARec) (ks : Obj (List String)) (W : String) (a : ARec)
      (entryW : WordEntry) (K : String),
      (W, a) ∈ il → objGet e.collection W = some entryW → K ∈ entryW.keys →
      K ∈ (il.foldl (matchKeysStep e) ks).map Prod.fst := by
  intro il
  induction il with
  | nil => intro ks W a entryW K h; cases h
  | cons p rest ih =>
    intro ks W a entryW K hmem hW hK
    rcases List.mem_cons.mp hmem with h1 | h1
    · rw [List.foldl_cons]
      apply kmFold_mono
      show K ∈ (matchKeysStep e ks p).map Prod.fst
      unfold matchKeysStep
      rw [← h1, hW]
      exact innerFold_adds _ _ _ _ hK
    · rw [List.foldl_cons]
      exact ih _ W a entryW K h1 hW hK

/-! ## The ALL-mode result pass -/

theorem resFold_mono (n : Nat) :
    ∀ (km : Obj (List String)) (acc : List String) (x : String), x ∈ acc →
      x ∈ km.foldl (fun res q => if q.2.length = n then res ++ [q.1] else res) acc := by
  intro km
  induction km with
  | nil => exact fun acc x h => h
  | cons q rest ih =>
    intro acc x h
    apply ih
    dsimp only
    by_cases hc : q.2.length = n
    · rw [if_pos hc]
      exact List.mem_append_left _ h
    · rw [if_neg hc]
      exact h

theorem resFold_all (n : Nat) :
    ∀ (km : Obj (List String)) (acc : List String) (x : String),
      x ∈ km.map Prod.fst → (∀ q ∈ km, q.2.length = n) →
      x ∈ km.foldl (fun res q => if q.2.length = n then res ++ [q.1] else res) acc := by
  intro km
  induction km with
  | nil => intro acc x h; cases h
  | cons q rest ih =>
    intro acc x h hlen
    simp only [List.map_cons, List.mem_cons] at h
    rcases h with h1 | h1
    · rw [List.foldl_cons]
      apply resFold_mono
      dsimp only
      rw [if_pos (hlen q (List.mem_cons_self _ _))]
      rw [h1]
      exact List.mem_append_right _ (List.mem_singleton.mpr rfl)
    · rw [List.foldl_cons]
      exact ih _ _ h1
        (fun q' hq' => hlen q' (List.mem_cons_of_mem _ hq'))

/-! ## Claim C4: prefix containment -/

/-- Claim C4: for every word `W` indexed in the Collection, every prefix `P`
of `W` with length at least 2 that normalizes to itself (and is a single
query token, i.e. contains no space), `match(P, 'all')` includes every key in
`W`'s keys list. -/
theorem c4_prefix_containment (e : Jsse) (W P : String) (entryW : WordEntry)
    (hW : objGet e.collection W = some entryW) (K : String) (hK : K ∈ entryW.keys)
    (hpre : P.data.isPrefixOf W.data = true)
    (hnorm : normalize P = P) (hlen : 2 ≤ P.length)
    (hns : ∀ c ∈ P.data, c ≠ ' ') :
    K ∈ e.matchRun P "all" := by
  have hidx := jsIndex_single P hnorm hlen hns
  have hia := indexAgainst_single e P hidx
  have hseed0 : ∀ pr ∈ ([(P, (⟨P, P.length, 1⟩ : ARec))] : Obj ARec),
      pr.2 = (⟨P, P.length, 1⟩ : ARec) := by
    intro pr hpr
    rw [List.mem_singleton.mp hpr]
  have hvals : ∀ pr ∈ e.indexAgainst P, pr.2 = (⟨P, P.length, 1⟩ : ARec) := by
    rw [hia]
    exact c4_fold_values P e.collection _ hseed0
  have horig : ∀ pr ∈ e.indexAgainst P, pr.2.orig = P := by
    intro pr hpr
    rw [hvals pr hpr]
  have hnd : ((e.indexAgainst P).map Prod.fst).Nodup := by
    rw [hia]
    exact c4_fold_nodup P e.collection _ (by simp)
  have hPmem : P ∈ (e.indexAgainst P).map Prod.fst := by
    rw [hia]
    exact c4_fold_mono P e.collection _ P (by simp)
  have hWmem : W ∈ (e.indexAgainst P).map Prod.fst := by
    rw [hia]
    exact c4_fold_covers P e.collection _ (W, entryW) (objGet_mem _ _ _ hW) hpre
  have hsize : querySize (e.indexAgainst P) = 1 := by
    rw [querySize_eq_filter]
    rw [List.filter_congr (fun pr hpr => ?_)]
    · exact filter_fst_eq_length_one (e.indexAgainst P) P hnd hPmem
    · rw [horig pr hpr]
  have hkmvals : ∀ q ∈ (e.indexAgainst P).foldl (matchKeysStep e) [], q.2 = [P] :=
    kmFold_values e P _ _ horig (by intro q hq; cases hq)
  have hKkm : K ∈ ((e.indexAgainst P).foldl (matchKeysStep e) []).map Prod.fst := by
    obtain ⟨pr, hpr, hfst⟩ := List.mem_map.mp hWmem
    exact kmFold_adds e _ _ W pr.2 entryW K (by rw [← hfst]; exact hpr) hW hK
  rw [matchRun_all_eq, hsize]
  exact resFold_all 1 _ [] K hKkm
    (fun q hq => by rw [hkmvals q hq]; rfl)

/-! ## Claim C3: the computed queryWordCount -/

theorem jsIndexStep_mem (acc : Obj IdxRec) (t w : String) :
    w ∈ (jsIndexStep acc t).map Prod.fst ↔
      (normalize t = w ∧ 2 ≤ (normalize t).length) ∨ w ∈ acc.map Prod.fst := by
  unfold jsIndexStep
  dsimp only
  by_cases hl : (normalize t).length < 2
  · rw [if_pos hl]
    constructor
    · exact fun h => Or.inr h
    · intro h
      rcases h with ⟨_, hge⟩ | h
      · omega
      · exact h
  · rw [if_neg hl]
    have hcore : ∀ v : IdxRec,
        w ∈ (objSet acc (normalize t) v).map Prod.fst ↔
          (normalize t = w ∧ 2 ≤ (normalize t).length) ∨ w ∈ acc.map Prod.fst := by
      intro v
      rw [mem_map_fst_objSet_iff]
      constructor
      · intro h
        rcases h with h | h
        · exact Or.inl ⟨h.symm, by omega⟩
        · exact Or.inr h
      · intro h
        rcases h with ⟨heq, _⟩ | h
        · exact Or.inl heq.symm
        · exact Or.inr h
    cases hg : objGet acc (normalize t) with
    | some r => exact hcore _
    | none => exact hcore _

theorem jsIndex_fold_mem (ws : List String) :
    ∀ (acc : Obj IdxRec) (w : String),
      w ∈ ((ws.foldl jsIndexStep acc).map Prod.fst) ↔
        (∃ t ∈ ws, normalize t = w ∧ 2 ≤ (normalize t).length) ∨
          w ∈ acc.map Prod.fst := by
  induction ws with
  | nil =>
    intro acc w
    simp
  | cons t rest ih =>
    intro acc w
    rw [List.foldl_cons, ih, jsIndexStep_mem]
    constructor
    · intro h
      rcases h with ⟨t', ht', hP⟩ | h
      · exact Or.inl ⟨t', List.mem_cons_of_mem _ ht', hP⟩
      · rcases h with hP | hacc
        · exact Or.inl ⟨t, List.mem_cons_self _ _, hP⟩
        · exact Or.inr hacc
    · intro h
      rcases h with ⟨t', ht', hP⟩ | hacc
      · rcases List.mem_cons.mp ht' with h1 | h1
        · subst h1
          exact Or.inr (Or.inl hP)
        · exact Or.inl ⟨t', h1, hP⟩
      · exact Or.inr (Or.inr hacc)

theorem jsIndex_mem (str w : String) :
    w ∈ (jsIndex str).map Prod.fst ↔
      ∃ t ∈ jsSplitSpace str, normalize t = w ∧ 2 ≤ (normalize t).length := by
  unfold jsIndex
  by_cases h : str = ""
  · rw [if_pos h]
    subst h
    constructor
    · intro hh
      cases hh
    · rintro ⟨t, ht, hP⟩
      have ht' : t = "" := by
        have : jsSplitSpace "" = [""] := rfl
        rw [this] at ht
        exact List.mem_singleton.mp ht
      subst ht'
      have : normalize "" = "" := rfl
      rw [this] at hP
      exact absurd hP.2 (by decide)
  · rw [if_neg h, jsIndex_fold_mem]
    simp

theorem jsIndex_length_eq_spec (str : String) :
    (jsIndex str).length = specQueryTokenCount str := by
  have h1 : (jsIndex str).length = ((jsIndex str).map Prod.fst).length := by simp
  rw [h1]
  unfold specQueryTokenCount
  apply List.Perm.length_eq
  apply (List.perm_ext_iff_of_nodup (jsIndex_nodup str) (List.nodup_dedup _)).mpr
  intro w
  rw [List.mem_dedup, jsIndex_mem]
  simp only [List.mem_filter, List.mem_map]
  constructor
  · rintro ⟨t, ht, heq, hlen⟩
    refine ⟨⟨t, ht, heq⟩, ?_⟩
    rw [heq] at hlen
    exact decide_eq_true hlen
  · rintro ⟨⟨t, ht, heq⟩, hlen⟩
    refine ⟨t, ht, heq, ?_⟩
    rw [heq]
    exact of_decide_eq_true hlen

theorem seedFold_props (toks : List String) :
    ∀ (L : Obj IdxRec) (acc : Obj ARec),
      (∀ p ∈ L, p.1 ∈ toks) →
      (∀ pr ∈ acc, pr.2.orig = pr.1 ∧ pr.1 ∈ toks) →
      ∀ pr ∈ L.foldl iaSeedStep acc, pr.2.orig = pr.1 ∧ pr.1 ∈ toks := by
  intro L
  induction L with
  | nil => exact fun acc _ h => h
  | cons p rest ih =>
    intro acc hL h
    rw [List.foldl_cons]
    apply ih _ (fun p' hp' => hL p' (List.mem_cons_of_mem _ hp'))
    intro pr hpr
    unfold iaSeedStep at hpr
    rcases mem_objSet _ _ _ _ hpr with h1 | h1
    · rw [h1]
      exact ⟨rfl, hL p (List.mem_cons_self _ _)⟩
    · exact h pr h1

theorem seedFold_nodup :
    ∀ (L : Obj IdxRec) (acc : Obj ARec), ((acc.map Prod.fst).Nodup) →
      (((L.foldl iaSeedStep acc).map Prod.fst).Nodup) := by
  intro L
  induction L with
  | nil => exact fun acc h => h
  | cons p rest ih =>
    intro acc h
    rw [List.foldl_cons]
    exact ih _ (objSet_nodup _ _ _ h)

theorem seedFold_covers :
    ∀ (L : Obj IdxRec) (acc : Obj ARec) (t : String),
      (t ∈ L.map Prod.fst ∨ t ∈ acc.map Prod.fst) →
      t ∈ (L.foldl iaSeedStep acc).map Prod.fst := by
  intro L
  induction L with
  | nil =>
    intro acc t h
    rcases h with h | h
    · cases h
    · exact h
  | cons p rest ih =>
    intro acc t h
    rw [List.foldl_cons]
    apply ih
    rcases h with h | h
    · simp only [List.map_cons, List.mem_cons] at h
      rcases h with h1 | h1
      · right
        rw [h1]
        exact mem_map_fst_objSet_self _ _ _
      · exact Or.inl h1
    · right
      exact mem_map_fst_objSet_of_mem _ _ _ _ h

theorem iaOver_inv (toks : List String) (q : String × WordEntry)
    (hq : q.1 ∈ toks → ∀ t ∈ toks, t.data.isPrefixOf q.1.data = true → t = q.1) :
    ∀ (L : Obj IdxRec) (idx : Obj ARec),
      (∀ p ∈ L, p.1 ∈ toks) → c3Inv toks idx →
      c3Inv toks (L.foldl (iaOver q) idx) := by
  intro L
  induction L with
  | nil => exact fun idx _ h => h
  | cons p rest ih =>
    intro idx hL hinv
    rw [List.foldl_cons]
    apply ih _ (fun p' hp' => hL p' (List.mem_cons_of_mem _ hp'))
    have hp1 : p.1 ∈ toks := hL p (List.mem_cons_self _ _)
    unfold iaOver
    by_cases hpre : p.1.data.isPrefixOf q.1.data = true
    · rw [if_pos hpre]
      refine ⟨?_, objSet_nodup _ _ _ hinv.2.1, ?_⟩
      · intro pr hpr
        rcases mem_objSet _ _ _ _ hpr with h1 | h1
        · rw [h1]
          exact ⟨fun heq => heq ▸ hp1, fun hqt => hq hqt p.1 hp1 hpre⟩
        · exact hinv.1 pr h1
      · intro t ht
        exact mem_map_fst_objSet_of_mem _ _ _ _ (hinv.2.2 t ht)
    · rw [if_neg hpre]
      exact hinv

theorem iaExpand_inv (toks : List String) (itmp : Obj IdxRec)
    (hL : ∀ p ∈ itmp, p.1 ∈ toks) :
    ∀ (C : List (String × WordEntry)) (idx : Obj ARec),
      (∀ q ∈ C, q.1 ∈ toks →
        ∀ t ∈ toks, t.data.isPrefixOf q.1.data = true → t = q.1) →
      c3Inv toks idx → c3Inv toks (C.foldl (iaExpandStep itmp) idx) := by
  intro C
  induction C with
  | nil => exact fun idx _ h => h
  | cons q rest ih =>
    intro idx hC hinv
    rw [List.foldl_cons]
    apply ih _ (fun q' hq' => hC q' (List.mem_cons_of_mem _ hq'))
    exact iaOver_inv toks q (hC q (List.mem_cons_self _ _)) itmp idx hL hinv

theorem map_fst_filter_mem {α : Type} (toks : List String) :
    ∀ l : List (String × α),
      (l.filter (fun pr => decide (pr.1 ∈ toks))).map Prod.fst =
        (l.map Prod.fst).filter (fun w => decide (w ∈ toks)) := by
  intro l
  induction l with
  | nil => rfl
  | cons q rest ih =>
    rw [List.filter_cons, List.map_cons, List.filter_cons]
    by_cases hc : q.1 ∈ toks
    · simp [hc, ih]
    · simp [hc, ih]

theorem filter_mem_toks_length {α : Type} (l : List (String × α))
    (toks : List String) (hnd : (l.map Prod.fst).Nodup) (htnd : toks.Nodup)
    (hsub : ∀ t ∈ toks, t ∈ l.map Prod.fst) :
    (l.filter (fun pr => decide (pr.1 ∈ toks))).length = toks.length := by
  have hlen : (l.filter (fun pr => decide (pr.1 ∈ toks))).length =
      ((l.filter (fun pr => decide (pr.1 ∈ toks))).map Prod.fst).length := by
    simp
  rw [hlen, map_fst_filter_mem]
  apply List.Perm.length_eq
  apply (List.perm_ext_iff_of_nodup (List.Nodup.filter _ hnd) htnd).mpr
  intro w
  rw [List.mem_filter]
  constructor
  · rintro ⟨_, hdec⟩
    exact of_decide_eq_true hdec
  · intro hw
    exact ⟨hsub w hw, decide_eq_true hw⟩

theorem indexAgainst_eq (e : Jsse) (str : String) :
    e.indexAgainst str = e.collection.foldl (iaExpandStep (jsIndex str))
      ((jsIndex str).foldl iaSeedStep []) := rfl

/-- Claim C3 (amended): the `queryWordCount` computed by `match` (the number
of expansion entries whose key equals their own `orig`) equals the number of
distinct, non-empty, length-at-least-2 normalized tokens of the query,
provided no Collection word that is itself a query token has a different
query token as a prefix of it.  (It is not independent of the Collection: a
Collection word equal to one token and extending another loses its seed
tag — see the counterexample.) -/
theorem c3_query_word_count (e : Jsse) (str : String)
    (hH : ∀ q ∈ e.collection, q.1 ∈ (jsIndex str).map Prod.fst →
      ∀ t ∈ (jsIndex str).map Prod.fst, t.data.isPrefixOf q.1.data = true →
        t = q.1) :
    querySize (e.indexAgainst str) = specQueryTokenCount str := by
  rw [← jsIndex_length_eq_spec]
  have hSeed : c3Inv ((jsIndex str).map Prod.fst)
      ((jsIndex str).foldl iaSeedStep []) := by
    refine ⟨?_, ?_, ?_⟩
    · intro pr hpr
      have h := seedFold_props _ (jsIndex str) []
        (fun p hp => List.mem_map.mpr ⟨p, hp, rfl⟩)
        (by intro pr h; cases h) pr hpr
      exact ⟨fun _ => h.2, fun _ => h.1⟩
    · exact seedFold_nodup _ [] List.nodup_nil
    · exact fun t ht => seedFold_covers _ [] t (Or.inl ht)
  have hInv : c3Inv ((jsIndex str).map Prod.fst) (e.indexAgainst str) := by
    rw [indexAgainst_eq]
    exact iaExpand_inv _ _ (fun p hp => List.mem_map.mpr ⟨p, hp, rfl⟩)
      e.collection _ hH hSeed
  rw [querySize_eq_filter,
    List.filter_congr (fun pr hpr => ?_),
    filter_mem_toks_length (e.indexAgainst str) ((jsIndex str).map Prod.fst)
      hInv.2.1 (jsIndex_nodup str) hInv.2.2]
  · simp
  · have hiff := hInv.1 pr hpr
    apply decide_eq_decide.mpr
    exact ⟨fun h => hiff.mp h.symm, fun h => (hiff.mpr h).symm⟩

/-- Witness for the amended claim C3: with `red car` indexed, the query
`red ca` has two distinct tokens and no token of a Collection word collides,
so the computed count is 2. -/
theorem c3_query_word_count_witness :
    querySize ((emptyJsse.add "red car" (some "k")).indexAgainst "red ca") =
      specQueryTokenCount "red ca" :=
  c3_query_word_count (emptyJsse.add "red car" (some "k")) "red ca" (by decide)

/-- Witness for claim C4: the word `install` is indexed under key `quote`;
the query `inst` (a prefix of length 4) returns `quote`. -/
theorem c4_prefix_containment_witness :
    "quote" ∈ (emptyJsse.add "install" (some "quote")).matchRun "inst" "all" :=
  c4_prefix_containment (emptyJsse.add "install" (some "quote")) "install" "inst"
    ⟨7, 1, ["quote"]⟩ (by decide) "quote" (by decide) (by decide) (by decide)
    (by decide) (by decide)

end JSSE
